import Mathlib

/-!
Verification of the trope package: an immutable rope-like tree (`Node`)
with `Slice`, `Splice`, `join` and `Flatten`, plus the size-adaptive
`Hybrid` wrapper.

Shallow embedding conventions:
* Go `int` is modelled as `Int` (negative offsets and counts matter).
* The leaf value (Go `interface\x7b\x7d` satisfying the `Slicer` capability) is
  modelled as `List α`; its `Slice(offset, count)` capability is list
  drop/take, matching the string slicer used by the package tests.
* The per-tree identity generator (a captured mutable counter in Go,
  `getID`) is modelled by explicit state passing: every operation takes the
  current counter value `g : Nat` and returns the updated counter; `getID()`
  yields `g+1` and bumps the counter, exactly like the Go closure
  `func() int \x7b id++; return id \x7d` started at 0 by `New`.
* Go panics (the invalid-range check in `Slice` and out-of-bounds child
  indexing) are modelled by returning `none`.
* Go distinguishes a nil `Children` slice (leaf marker) from a non-nil one;
  no reachable node carries a non-nil empty `Children`, so `children = []`
  models `Children == nil`.
-/

namespace Trope

/-- The immutable tree node: Go `Node` with fields `ID`, `Children`, `Leaf`,
`Count` (the `getID` closure is threaded separately as state). -/
inductive Node (α : Type) : Type where
  | mk : Nat → List (Node α) → List α → Int → Node α

variable {α : Type}

def Node.id : Node α → Nat
  | .mk i _ _ _ => i

def Node.children : Node α → List (Node α)
  | .mk _ cs _ _ => cs

def Node.leaf : Node α → List α
  | .mk _ _ l _ => l

def Node.count : Node α → Int
  | .mk _ _ _ c => c

@[simp] theorem Node.id_mk (i : Nat) (cs : List (Node α)) (l : List α) (c : Int) :
    (Node.mk i cs l c).id = i := rfl

@[simp] theorem Node.children_mk (i : Nat) (cs : List (Node α)) (l : List α) (c : Int) :
    (Node.mk i cs l c).children = cs := rfl

@[simp] theorem Node.leaf_mk (i : Nat) (cs : List (Node α)) (l : List α) (c : Int) :
    (Node.mk i cs l c).leaf = l := rfl

@[simp] theorem Node.count_mk (i : Nat) (cs : List (Node α)) (l : List α) (c : Int) :
    (Node.mk i cs l c).count = c := rfl

theorem Node.sizeOf_children_lt (n : Node α) : sizeOf n.children < sizeOf n := by
  cases n with
  | mk i cs l c => simp [Node.children]; omega

theorem Node.sizeOf_lt_of_mem {c : Node α} {n : Node α} (h : c ∈ n.children) :
    sizeOf c < sizeOf n :=
  lt_trans (List.sizeOf_lt_of_mem h) n.sizeOf_children_lt

/-- Go `New(initial, count)`: a fresh leaf node with ID 0 and a fresh
generator whose counter starts at 0. -/
def New (initial : List α) (count : Int) : Node α :=
  Node.mk 0 [] initial count

/-- The leaf `Slicer` capability: extract `[offset, offset+count)` from the
leaf value, as the package tests' string slicer `s[offset : offset+count]`
does on valid ranges. -/
def listSlice (l : List α) (offset count : Int) : List α :=
  (l.drop offset.toNat).take count.toNat

mutual
/-- Go `forEach`: the leaf nodes visited in order (count-0 subtrees are
skipped entirely); `ForEach` calls the callback on each visited leaf's
`Leaf` and `Count`. -/
def Node.leaves : Node α → List (Node α)
  | n =>
    if n.count = 0 then []
    else if n.children.isEmpty then [n]
    else Node.leavesList n.children
termination_by n => sizeOf n
decreasing_by simp_wf; exact n.sizeOf_children_lt

def Node.leavesList : List (Node α) → List (Node α)
  | [] => []
  | c :: rest => c.leaves ++ Node.leavesList rest
termination_by cs => sizeOf cs
decreasing_by all_goals simp_wf <;> omega
end

/-- Concatenation of the `Leaf` values of a list of leaf nodes. -/
def leafConcat : List (Node α) → List α
  | [] => []
  | c :: rest => c.leaf ++ leafConcat rest

/-- The flattened content of a node: the concatenation of the leaf values
produced by `ForEach`, exactly as the package tests reconstruct strings. -/
def Node.content (n : Node α) : List α :=
  leafConcat n.leaves

/-- Sum of the counts of a list of nodes. -/
def sumCounts : List (Node α) → Int
  | [] => 0
  | c :: rest => c.count + sumCounts rest

/-- Well-formedness of a node, the invariant stated in the spec: counts are
nonnegative; an internal node's count is the sum of its children's counts; a
leaf node's count is the length of its leaf value (the declared length,
given that the leaf slicer returns values of the requested length); an empty
node is a leaf with empty leaf value. -/
inductive Node.wf : Node α → Prop
  | intro (n : Node α) :
      0 ≤ n.count →
      (n.children = [] → n.count = (n.leaf.length : Int)) →
      (n.children ≠ [] → n.count = sumCounts n.children) →
      (n.count = 0 → n.children = [] ∧ n.leaf = []) →
      (∀ c ∈ n.children, Node.wf c) →
      Node.wf n

theorem Node.wf.count_nonneg {n : Node α} (h : n.wf) : 0 ≤ n.count := by
  cases h; assumption

theorem Node.wf.leaf_len {n : Node α} (h : n.wf) (hc : n.children = []) :
    n.count = (n.leaf.length : Int) := by
  cases h with
  | intro _ h1 h2 h3 h4 h5 => exact h2 hc

theorem Node.wf.sum_children {n : Node α} (h : n.wf) (hc : n.children ≠ []) :
    n.count = sumCounts n.children := by
  cases h with
  | intro _ h1 h2 h3 h4 h5 => exact h3 hc

theorem Node.wf.empty_struct {n : Node α} (h : n.wf) (hc : n.count = 0) :
    n.children = [] ∧ n.leaf = [] := by
  cases h with
  | intro _ h1 h2 h3 h4 h5 => exact h4 hc

theorem Node.wf.child {n : Node α} (h : n.wf) {c : Node α} (hc : c ∈ n.children) :
    c.wf := by
  cases h with
  | intro _ h1 h2 h3 h4 h5 => exact h5 c hc

/-- Go's `limit` constant: the branching ceiling in `join`. -/
def limit : Int := 100

/-- Go `Node.join`: concatenate two nodes. The returned ID is freshly
allocated from the receiver's generator (`result.ID = n.getID()` runs in
every case). -/
def Node.join (n o : Node α) (g : Nat) : Node α × Nat :=
  let base :=
    if n.count = 0 then o
    else if o.count = 0 then n
    else if n.children.isEmpty ∧ o.children.isEmpty then
      Node.mk n.id [n, o] n.leaf n.count
    else if n.children.isEmpty ∨ (¬o.children.isEmpty ∧ (n.children.length : Int) > limit) then
      Node.mk n.id (n :: o.children) n.leaf n.count
    else if o.children.isEmpty then
      Node.mk n.id (n.children ++ [o]) n.leaf n.count
    else
      Node.mk n.id (n.children ++ o.children) n.leaf n.count
  (Node.mk (g + 1) base.children base.leaf (n.count + o.count), g + 1)

mutual
/-- Go `Node.Slice` together with its children-scanning loop
(`sliceLoop cs seen acc` mirrors the `for kk` loop with running prefix sum
`seen` and accumulated `children`). `none` models the panic on an invalid
range. -/
def Node.slice (n : Node α) (offset count : Int) (g : Nat) : Option (Node α × Nat) :=
  if offset < 0 ∨ count < 0 ∨ offset + count > n.count then none
  else if offset = 0 ∧ count = n.count then some (n, g)
  else if count = 0 then some (Node.mk (g + 1) [] [] 0, g + 1)
  else if n.children.isEmpty then
    some (Node.mk (g + 1) n.children (listSlice n.leaf offset count) count, g + 1)
  else
    match Node.sliceLoop offset count n.children 0 [] g with
    | none => none
    | some (children2, g2) => some (Node.mk (g2 + 1) children2 n.leaf count, g2 + 1)
termination_by sizeOf n
decreasing_by simp_wf; exact n.sizeOf_children_lt

def Node.sliceLoop (offset count : Int) :
    List (Node α) → Int → List (Node α) → Nat → Option (List (Node α) × Nat)
  | [], _, acc, g => some (acc, g)
  | ch :: rest, seen, acc, g =>
    if seen < offset + count then
      let start := if offset > seen then offset else seen
      let stop := if offset + count < seen + ch.count then offset + count else seen + ch.count
      if start < stop then
        match ch.slice (start - seen) (stop - start) g with
        | none => none
        | some (ch2, g2) => Node.sliceLoop offset count rest stop (acc ++ [ch2]) g2
      else Node.sliceLoop offset count rest stop acc g
    else some (acc, g)
termination_by cs => sizeOf cs
decreasing_by all_goals simp_wf <;> omega
end

/-- The slow path of Go `Node.Splice`:
`n.Slice(0, offset).join(replacement).join(n.Slice(offset+count, ...))`,
with the right slice evaluated first as in the source. -/
def Node.spliceSlow (n : Node α) (offset count : Int) (replacement : Node α) (g : Nat) :
    Option (Node α × Nat) :=
  match n.slice (offset + count) (n.count - offset - count) g with
  | none => none
  | some (right, g1) =>
    match n.slice 0 offset g1 with
    | none => none
    | some (leftN, g2) =>
      let (j1, g3) := leftN.join replacement g2
      some (j1.join right g3)

/-- The classification loop at the head of Go `spliceChildren`: walking the
children with running prefix sum `seen`, count how many fall entirely left
of the edit range, entirely right of it, or overlap it, together with their
total counts. Returns `((left, leftCount), (right, rightCount), (mid, midCount))`. -/
def classifyAux (offset count : Int) :
    List (Node α) → Int → (Nat × Int) × (Nat × Int) × (Nat × Int)
  | [], _ => ((0, 0), (0, 0), (0, 0))
  | ch :: rest, seen =>
    let res := classifyAux offset count rest (seen + ch.count)
    if seen + ch.count ≤ offset then
      ((res.1.1 + 1, res.1.2 + ch.count), res.2.1, res.2.2)
    else if seen ≥ offset + count then
      (res.1, (res.2.1.1 + 1, res.2.1.2 + ch.count), res.2.2)
    else
      (res.1, res.2.1, (res.2.2.1 + 1, res.2.2.2 + ch.count))

/-- Go `Node.spliceChildren`: splice a range whose boundaries fall inside
the first and last overlapping children; `none` models both the invalid
range panic of the inner `Slice` calls and the out-of-range child indexing
(`n.Children[left]`, `n.Children[left+mid-1]`). -/
def Node.spliceChildren (n : Node α) (offset count : Int) (replacement : Node α) (g : Nat) :
    Option (Node α × Nat) :=
  let cls := classifyAux offset count n.children 0
  let left := cls.1.1
  let leftCount := cls.1.2
  let rightCount := cls.2.1.2
  let mid := cls.2.2.1
  match n.children[left]? with
  | none => none
  | some chL =>
    match chL.slice 0 (offset - leftCount) g with
    | none => none
    | some (innerLeft, g1) =>
      if left + mid = 0 then none
      else
        match n.children[left + mid - 1]? with
        | none => none
        | some rch =>
          let offsetr := offset + count - (n.count - rightCount - rch.count)
          let countr := rch.count - offsetr
          match rch.slice offsetr countr g1 with
          | none => none
          | some (innerRight, g2) =>
            let (j1, g3) := innerLeft.join replacement g2
            let (inner, g4) := j1.join innerRight g3
            let newChildren :=
              n.children.take left ++
                (if inner.children.isEmpty then [inner] else inner.children) ++
                n.children.drop (left + mid)
            some (Node.mk (g4 + 1) newChildren n.leaf (n.count - count + replacement.count), g4 + 1)

mutual
/-- Go `Node.Splice`: fast path A (whole-receiver replace, with a fresh ID
from the receiver's generator), fast path B (pure append via `join`), fast
path C (the scanning loop recursing into a single containing child), fast
path D (`spliceChildren`) and the slow slice/join path. -/
def Node.splice (n : Node α) (offset count : Int) (replacement : Node α) (g : Nat) :
    Option (Node α × Nat) :=
  if offset = 0 ∧ count = n.count then
    some (Node.mk (g + 1) replacement.children replacement.leaf replacement.count, g + 1)
  else if offset = n.count ∧ count = 0 then
    some (n.join replacement g)
  else
    match Node.spliceScan offset count replacement n.children 0 g with
    | some none => none
    | some (some (children2, g2)) =>
      some (Node.mk (g2 + 1) children2 n.leaf (n.count + (replacement.count - count)), g2 + 1)
    | none =>
      if hne : n.children.isEmpty then n.spliceSlow offset count replacement g
      else
        if offset ≥ (n.children.head (by simpa using hne)).count ∨
            offset + count ≤ n.count - (n.children.getLast (by simpa using hne)).count then
          n.spliceChildren offset count replacement g
        else n.spliceSlow offset count replacement g
termination_by sizeOf n
decreasing_by simp_wf; exact n.sizeOf_children_lt

/-- The fast-path-C loop of Go `Node.Splice`: scan children while
`seen <= offset`; if one fully contains the edit range, splice recursively
into it and rebuild the children list. Outer `none`: no containing child
was found (fall through to the later paths); `some none`: a containing
child was found but the recursive splice panicked. -/
def Node.spliceScan (offset count : Int) (replacement : Node α) :
    List (Node α) → Int → Nat → Option (Option (List (Node α) × Nat))
  | [], _, _ => none
  | ch :: rest, seen, g =>
    if seen ≤ offset then
      if seen + ch.count ≥ offset + count then
        some (match ch.splice (offset - seen) count replacement g with
          | none => none
          | some (ch2, g2) => some (ch2 :: rest, g2))
      else
        match Node.spliceScan offset count replacement rest (seen + ch.count) g with
        | none => none
        | some none => some none
        | some (some (l, g2)) => some (some (ch :: l, g2))
    else none
termination_by cs => sizeOf cs
decreasing_by all_goals simp_wf <;> omega
end

/-- Go `Node.Flatten`'s accumulation over the visited leaves: thread the
pending chunk (`leafs`, its `count`) and the completed chunk list through
the `forEach` callback, cutting a chunk whenever `len(leafs) == chunkSize`. -/
def flattenFold (chunkSize : Int) :
    List (Node α) → List (Node α) × List (Node α) × Int × Nat →
      List (Node α) × List (Node α) × Int × Nat
  | [], st => st
  | lf :: rest, (children2, leafs, count, g) =>
    let leafs2 := leafs ++ [lf]
    let count2 := count + lf.count
    if (leafs2.length : Int) = chunkSize then
      flattenFold chunkSize rest
        (children2 ++ [Node.mk (g + 1) leafs2 [] count2], [], 0, g + 1)
    else
      flattenFold chunkSize rest (children2, leafs2, count2, g)

/-- Go `Node.Flatten`: group the visited leaves into chunks of `chunkSize`,
the final (possibly smaller) chunk included, and hang all chunks off the
root; the root keeps its leaf value and count, and gets a fresh ID. -/
def Node.flatten (n : Node α) (chunkSize : Int) (g : Nat) : Node α × Nat :=
  match flattenFold chunkSize n.leaves ([], [], 0, g) with
  | (children2, leafs, count, g1) =>
    let final :=
      if leafs.isEmpty then (children2, g1)
      else (children2 ++ [Node.mk (g1 + 1) leafs [] count], g1 + 1)
    (Node.mk (final.2 + 1) final.1 n.leaf n.count, final.2 + 1)

/-- The raw value's `Splicer` capability used by `Hybrid`: the package
tests' string splicer `s[:offset] + r + s[offset+count:]`. -/
def listSplice (l : List α) (offset count : Int) (r : List α) : List α :=
  l.take offset.toNat ++ r ++ l.drop (offset + count).toNat

/-- Go `Hybrid`: raw storage (`raw` with its `count`) or tree storage
(`node`), switched at the configured marks. Field `count` is Go's
`Hybrid.Count` (only meaningful in raw mode); `node.count` is the
embedded `Node.Count`. -/
structure Hybrid (α : Type) : Type where
  highMark : Int
  lowMark : Int
  raw : List α
  count : Int
  node : Node α

/-- Go `Hybrid.Size`: the raw count when the node is empty, else the node
count. -/
def Hybrid.size (h : Hybrid α) : Int :=
  if h.node.count = 0 then h.count else h.node.count

/-- Go `Hybrid.ForEach` flattened: the raw value in raw mode, else the
node's content. -/
def Hybrid.content (h : Hybrid α) : List α :=
  if h.node.count = 0 then h.raw else h.node.content

/-- Go `Hybrid.Slice`: delegate to the node in tree mode, else re-slice the
raw value and update the raw count. -/
def Hybrid.slice (h : Hybrid α) (offset count : Int) (g : Nat) : Option (Hybrid α × Nat) :=
  if h.node.count > 0 then
    match h.node.slice offset count g with
    | none => none
    | some (m, g2) => some (⟨h.highMark, h.lowMark, h.raw, h.count, m⟩, g2)
  else
    some (⟨h.highMark, h.lowMark, listSlice h.raw offset count, count, h.node⟩, g)

/-- Go `Hybrid.simplify`: collapse a tree-mode hybrid back to raw by
splicing every visited leaf value onto the end of a fresh raw accumulator. -/
def Hybrid.simplify (h : Hybrid α) : Hybrid α :=
  if h.node.count = 0 then h
  else
    let st := (h.node.leaves).foldl
      (fun (acc : List α × Int) lf => (listSplice acc.1 acc.2 0 lf.leaf, acc.2 + lf.count))
      (listSlice h.raw 0 0, 0)
    ⟨h.highMark, h.lowMark, st.1, st.2, Node.mk 0 [] [] 0⟩

/-- Go `Hybrid.Splice`: convert raw to tree when the post-edit size exceeds
the high mark, splice in whichever mode is active (coercing the replacement
to that mode), and convert tree back to raw when the result falls below the
low mark. A raw-to-tree conversion installs a freshly created node tree, so
the threaded generator counter restarts at 0, as `New`'s does. -/
def Hybrid.splice (h : Hybrid α) (offset count : Int) (replacement : Hybrid α) (g : Nat) :
    Option (Hybrid α × Nat) :=
  let hg :=
    if h.node.count = 0 ∧ h.size + replacement.size - count > h.highMark then
      ((⟨h.highMark, h.lowMark, listSlice h.raw 0 0, 0, New h.raw h.count⟩ : Hybrid α), 0)
    else (h, g)
  let h1 := hg.1
  let g1 := hg.2
  if h1.node.count > 0 then
    let n := if replacement.node.count = 0 then New replacement.raw replacement.count
             else replacement.node
    match h1.node.splice offset count n g1 with
    | none => none
    | some (m, g2) =>
      let h2 : Hybrid α := ⟨h1.highMark, h1.lowMark, h1.raw, h1.count, m⟩
      if m.count < h1.lowMark then some (h2.simplify, g2) else some (h2, g2)
  else
    let r := replacement.simplify
    let raw2 := listSplice h1.raw offset count r.raw
    let count2 := h1.count + (r.count - count)
    if count2 > h1.highMark then
      some (⟨h1.highMark, h1.lowMark, listSlice raw2 0 0, 0, New raw2 count2⟩, 0)
    else
      some (⟨h1.highMark, h1.lowMark, raw2, count2, h1.node⟩, g1)

/-! ### Basic content lemmas -/

/-- Content of a list of sibling nodes, in order. -/
def listContent (cs : List (Node α)) : List α :=
  leafConcat (Node.leavesList cs)

theorem leavesList_nil : Node.leavesList ([] : List (Node α)) = [] := by
  simp [Node.leavesList]

theorem leavesList_cons (c : Node α) (rest : List (Node α)) :
    Node.leavesList (c :: rest) = c.leaves ++ Node.leavesList rest := by
  simp [Node.leavesList]

theorem leavesList_append (a b : List (Node α)) :
    Node.leavesList (a ++ b) = Node.leavesList a ++ Node.leavesList b := by
  induction a with
  | nil => simp [leavesList_nil]
  | cons c rest ih => simp [leavesList_cons, ih]

theorem leafConcat_append (a b : List (Node α)) :
    leafConcat (a ++ b) = leafConcat a ++ leafConcat b := by
  induction a with
  | nil => simp [leafConcat]
  | cons c rest ih => simp [leafConcat, ih]

@[simp] theorem listContent_nil : listContent ([] : List (Node α)) = [] := by
  simp [listContent, leavesList_nil, leafConcat]

theorem listContent_cons (c : Node α) (rest : List (Node α)) :
    listContent (c :: rest) = c.content ++ listContent rest := by
  simp [listContent, leavesList_cons, leafConcat_append, Node.content]

theorem listContent_append (a b : List (Node α)) :
    listContent (a ++ b) = listContent a ++ listContent b := by
  simp [listContent, leavesList_append, leafConcat_append]

theorem listContent_singleton (c : Node α) : listContent [c] = c.content := by
  simp [listContent_cons]

/-- The one unfolding lemma for `content`: it depends only on the count,
children and leaf fields. -/
theorem content_eq (n : Node α) :
    n.content = if n.count = 0 then [] else
      if n.children.isEmpty then n.leaf else listContent n.children := by
  rw [Node.content, Node.leaves]
  by_cases h0 : n.count = 0
  · simp [h0, leafConcat]
  · by_cases hch : n.children.isEmpty
    · simp [h0, hch, leafConcat]
    · simp [h0, hch, listContent]

theorem content_of_count_eq_zero {n : Node α} (h : n.count = 0) : n.content = [] := by
  simp [content_eq, h]

theorem content_mk (i : Nat) (cs : List (Node α)) (l : List α) (c : Int) :
    (Node.mk i cs l c).content =
      if c = 0 then [] else if cs.isEmpty then l else listContent cs := by
  simp [content_eq]

@[simp] theorem sumCounts_nil : sumCounts ([] : List (Node α)) = 0 := rfl

theorem sumCounts_cons (c : Node α) (rest : List (Node α)) :
    sumCounts (c :: rest) = c.count + sumCounts rest := rfl

theorem sumCounts_append (a b : List (Node α)) :
    sumCounts (a ++ b) = sumCounts a + sumCounts b := by
  induction a with
  | nil => simp
  | cons c rest ih => simp [sumCounts_cons, ih]; ring

theorem sumCounts_nonneg {cs : List (Node α)} (h : ∀ c ∈ cs, 0 ≤ c.count) :
    0 ≤ sumCounts cs := by
  induction cs with
  | nil => simp
  | cons c rest ih =>
    rw [sumCounts_cons]
    have h1 := h c (by simp)
    have h2 := ih (fun x hx => h x (by simp [hx]))
    omega

/-- Size-based strong induction for nodes. -/
theorem Node.sizeOf_induction {motive : Node α → Prop}
    (step : ∀ n : Node α, (∀ m : Node α, sizeOf m < sizeOf n → motive m) → motive n) :
    ∀ n, motive n := by
  intro n
  generalize h : sizeOf n = k
  induction k using Nat.strong_induction_on generalizing n with
  | _ k ih =>
    subst h
    exact step n (fun m hm => ih _ hm m rfl)

/-- Under well-formedness, the flattened content of a node has exactly
`count` elements. -/
theorem content_length : ∀ n : Node α, n.wf → (n.content.length : Int) = n.count := by
  intro n
  induction n using Node.sizeOf_induction with
  | step n ih =>
    intro hwf
    rw [content_eq]
    by_cases h0 : n.count = 0
    · simp [h0]
    · by_cases hch : n.children = []
      · rw [if_neg h0, if_pos (by simpa using hch)]
        exact (hwf.leaf_len hch).symm
      · have hsum := hwf.sum_children hch
        rw [if_neg h0, if_neg (by simpa using hch)]
        rw [hsum]
        have : ∀ cs : List (Node α), (∀ c ∈ cs, c.wf) →
            (∀ c ∈ cs, sizeOf c < sizeOf n) →
            ((listContent cs).length : Int) = sumCounts cs := by
          intro cs
          induction cs with
          | nil => simp
          | cons c rest ihl =>
            intro hcs hsz
            rw [listContent_cons, sumCounts_cons]
            have h1 := ih c (hsz c (by simp)) (hcs c (by simp))
            have h2 := ihl (fun x hx => hcs x (by simp [hx]))
              (fun x hx => hsz x (by simp [hx]))
            simp only [List.length_append]
            push_cast
            omega
        exact this n.children (fun c hc => hwf.child hc)
          (fun c hc => Node.sizeOf_lt_of_mem hc)

theorem listContent_length {cs : List (Node α)} (h : ∀ c ∈ cs, c.wf) :
    ((listContent cs).length : Int) = sumCounts cs := by
  induction cs with
  | nil => simp
  | cons c rest ih =>
    rw [listContent_cons, sumCounts_cons]
    have h1 := content_length c (h c (by simp))
    have h2 := ih (fun x hx => h x (by simp [hx]))
    simp only [List.length_append]
    push_cast
    omega

/-- Well-formedness in terms of the constructor's fields. -/
theorem wf_mk_iff {i : Nat} {cs : List (Node α)} {l : List α} {c : Int} :
    (Node.mk i cs l c).wf ↔
      0 ≤ c ∧ (cs = [] → c = (l.length : Int)) ∧ (cs ≠ [] → c = sumCounts cs) ∧
        (c = 0 → cs = [] ∧ l = []) ∧ ∀ x ∈ cs, x.wf := by
  constructor
  · intro h
    exact ⟨h.count_nonneg, fun hc => h.leaf_len hc, fun hc => h.sum_children hc,
      fun hc => h.empty_struct hc, fun x hx => h.child hx⟩
  · rintro ⟨h1, h2, h3, h4, h5⟩
    exact Node.wf.intro _ h1 h2 h3 h4 h5

theorem wf_mk_of_wf {n : Node α} (h : n.wf) (i : Nat) :
    (Node.mk i n.children n.leaf n.count).wf := by
  rw [wf_mk_iff]
  exact ⟨h.count_nonneg, fun hc => h.leaf_len hc, fun hc => h.sum_children hc,
    fun hc => h.empty_struct hc, fun x hx => h.child hx⟩

/-! ### join lemmas -/

theorem join_gen (n o : Node α) (g : Nat) : (n.join o g).2 = g + 1 := rfl

theorem join_count (n o : Node α) (g : Nat) :
    ((n.join o g).1).count = n.count + o.count := rfl

theorem join_content {n o : Node α} (hn : n.wf) (ho : o.wf) (g : Nat) :
    ((n.join o g).1).content = n.content ++ o.content := by
  have hn0 := hn.count_nonneg
  have ho0 := ho.count_nonneg
  rw [Node.join]
  split_ifs with h1 h2 h3 h4 h5
  · -- n empty: result carries o's fields
    simp only
    rw [content_mk, content_of_count_eq_zero h1, content_eq o]
    have : n.count + o.count = o.count := by omega
    rw [this]
    simp
  · -- o empty: result carries n's fields
    simp only
    rw [content_mk, content_of_count_eq_zero h2, content_eq n]
    have : n.count + o.count = n.count := by omega
    rw [this]
    simp
  · -- both leaves
    simp only
    rw [content_mk]
    simp only [Node.children_mk, Node.leaf_mk]
    rw [if_neg (by omega), if_neg (by simp)]
    rw [listContent_cons, listContent_singleton]
  · -- n nested in front of o's children
    have hoch : ¬o.children.isEmpty := by
      rcases h4 with h4 | h4
      · by_contra hc
        exact h3 ⟨h4, by simpa using hc⟩
      · exact h4.1
    simp only
    rw [content_mk]
    simp only [Node.children_mk, Node.leaf_mk]
    rw [if_neg (by omega), if_neg (by simp)]
    rw [listContent_cons]
    rw [content_eq o, if_neg h2, if_neg (by simpa using hoch)]
  · -- o appended after n's children
    have hnch : ¬n.children.isEmpty := by
      intro hc
      exact h4 (Or.inl hc)
    simp only
    rw [content_mk]
    simp only [Node.children_mk, Node.leaf_mk]
    rw [if_neg (by omega), if_neg (by simp)]
    rw [listContent_append, listContent_singleton]
    rw [content_eq n, if_neg h1, if_neg hnch]
  · -- both internal: children lists concatenated
    have hnch : ¬n.children.isEmpty := by
      intro hc
      exact h4 (Or.inl hc)
    have hoch : ¬o.children.isEmpty := h5
    simp only
    rw [content_mk]
    simp only [Node.children_mk, Node.leaf_mk]
    have hne : ¬(n.children ++ o.children).isEmpty := by
      simp only [List.isEmpty_iff, List.append_eq_nil]
      rintro ⟨ha, _⟩
      exact hnch (by simp [ha])
    rw [if_neg (by omega), if_neg hne]
    rw [listContent_append]
    rw [content_eq n, if_neg h1, if_neg hnch, content_eq o, if_neg h2, if_neg hoch]

theorem join_wf {n o : Node α} (hn : n.wf) (ho : o.wf) (g : Nat) :
    ((n.join o g).1).wf := by
  have hn0 := hn.count_nonneg
  have ho0 := ho.count_nonneg
  rw [Node.join]
  split_ifs with h1 h2 h3 h4 h5
  · -- n empty
    simp only
    have : n.count + o.count = o.count := by omega
    rw [this]
    exact wf_mk_of_wf ho _
  · -- o empty
    simp only
    have : n.count + o.count = n.count := by omega
    rw [this]
    exact wf_mk_of_wf hn _
  · -- both leaves
    simp only
    rw [wf_mk_iff]
    simp only [Node.children_mk, Node.leaf_mk]
    refine ⟨by omega, by simp, ?_, by intro h; omega, ?_⟩
    · intro _
      rw [sumCounts_cons, sumCounts_cons, sumCounts_nil]
      ring
    · intro x hx
      simp only [List.mem_cons, List.not_mem_nil, or_false] at hx
      rcases hx with rfl | rfl
      · exact hn
      · exact ho
  · -- n nested in front of o's children
    have hoch : ¬o.children.isEmpty := by
      rcases h4 with h4 | h4
      · by_contra hc
        exact h3 ⟨h4, by simpa using hc⟩
      · exact h4.1
    have hosum := ho.sum_children (by simpa using hoch)
    simp only
    rw [wf_mk_iff]
    simp only [Node.children_mk, Node.leaf_mk]
    refine ⟨by omega, by simp, ?_, by intro h; omega, ?_⟩
    · intro _
      rw [sumCounts_cons, ← hosum]
    · intro x hx
      rcases List.mem_cons.mp hx with rfl | hx
      · exact hn
      · exact ho.child hx
  · -- o appended after n's children
    have hnch : n.children ≠ [] := by
      intro hc
      exact h4 (Or.inl (by simp [hc]))
    have hnsum := hn.sum_children hnch
    simp only
    rw [wf_mk_iff]
    simp only [Node.children_mk, Node.leaf_mk]
    refine ⟨by omega, ?_, ?_, by intro h; omega, ?_⟩
    · intro hemp
      exact absurd (List.append_eq_nil.mp hemp).1 hnch
    · intro _
      rw [sumCounts_append, sumCounts_cons, sumCounts_nil, ← hnsum]
      ring
    · intro x hx
      rcases List.mem_append.mp hx with hx | hx
      · exact hn.child hx
      · rw [List.mem_singleton] at hx
        subst hx
        exact ho
  · -- both internal
    have hnch : n.children ≠ [] := by
      intro hc
      exact h4 (Or.inl (by simp [hc]))
    have hoch : o.children ≠ [] := by simpa using h5
    have hnsum := hn.sum_children hnch
    have hosum := ho.sum_children hoch
    simp only
    rw [wf_mk_iff]
    simp only [Node.children_mk, Node.leaf_mk]
    refine ⟨by omega, ?_, ?_, by intro h; omega, ?_⟩
    · intro hemp
      exact absurd (List.append_eq_nil.mp hemp).1 hnch
    · intro _
      rw [sumCounts_append, ← hnsum, ← hosum]
    · intro x hx
      rcases List.mem_append.mp hx with hx | hx
      · exact hn.child hx
      · exact ho.child hx

/-! ### Slice specification -/

/-- The specification of `Slice` on one node: on a well-formed receiver and
a valid range it succeeds and returns the requested subrange of the content,
with the requested count, preserving well-formedness. -/
def SliceOK (n : Node α) : Prop :=
  n.wf → ∀ offset count : Int, 0 ≤ offset → 0 ≤ count → offset + count ≤ n.count →
    ∀ g : Nat, ∃ m g2, n.slice offset count g = some (m, g2) ∧
      m.content = (n.content.drop offset.toNat).take count.toNat ∧
      m.count = count ∧ m.wf

theorem sumCounts_ne_nil {cs : List (Node α)} (h : sumCounts cs ≠ 0) : cs ≠ [] := by
  intro hc
  subst hc
  simp at h

theorem sliceLoop_spec (offset count : Int) (_ho : 0 ≤ offset) (hc : 0 < count) :
    ∀ (cs : List (Node α)), (∀ ch ∈ cs, ch.wf) → (∀ ch ∈ cs, SliceOK ch) →
    ∀ (seen : Int) (acc : List (Node α)) (g : Nat),
      0 ≤ seen → seen ≤ offset + count → offset + count ≤ seen + sumCounts cs →
      ∃ extra g2,
        Node.sliceLoop offset count cs seen acc g = some (acc ++ extra, g2) ∧
        listContent extra =
          ((listContent cs).drop (offset - seen).toNat).take
            (offset + count - max offset seen).toNat ∧
        sumCounts extra = offset + count - max offset seen ∧
        ∀ x ∈ extra, x.wf := by
  intro cs
  induction cs with
  | nil =>
    intro _ _ seen acc g h0 h1 h2
    have hseen : seen = offset + count := by simp at h2; omega
    refine ⟨[], g, ?_, ?_, ?_, by simp⟩
    · simp [Node.sliceLoop]
    · simp
    · rw [hseen]
      simp
      omega
  | cons ch rest ih =>
    intro hwf hok seen acc g h0 h1 h2
    have hchwf := hwf ch (by simp)
    have hch0 := hchwf.count_nonneg
    have hchlen : (ch.content.length : Int) = ch.count := content_length ch hchwf
    rw [sumCounts_cons] at h2
    by_cases hlt : seen < offset + count
    · rw [Node.sliceLoop, if_pos hlt]
      simp only
      have hstart : (if offset > seen then offset else seen) = max offset seen := by
        split_ifs <;> omega
      have hstop :
          (if offset + count < seen + ch.count then offset + count else seen + ch.count) =
            min (offset + count) (seen + ch.count) := by
        split_ifs <;> omega
      rw [hstart, hstop]
      set start := max offset seen with hstartdef
      set stop := min (offset + count) (seen + ch.count) with hstopdef
      by_cases hover : start < stop
      · -- the child overlaps the requested range: slice it and recurse
        rw [if_pos hover]
        have hvs : 0 ≤ start - seen := by omega
        have hvc : 0 ≤ stop - start := by omega
        have hve : (start - seen) + (stop - start) ≤ ch.count := by omega
        obtain ⟨m, g2, heq, hcont, hcount, hwfm⟩ :=
          hok ch (by simp) hchwf (start - seen) (stop - start) hvs hvc hve g
        rw [heq]
        have hrest0 : 0 ≤ sumCounts rest :=
          sumCounts_nonneg (fun x hx => (hwf x (by simp [hx])).count_nonneg)
        have h2' : offset + count ≤ stop + sumCounts rest := by omega
        obtain ⟨extra2, g3, heq2, hcont2, hsum2, hwf2⟩ :=
          ih (fun x hx => hwf x (by simp [hx])) (fun x hx => hok x (by simp [hx]))
            stop (acc ++ [m]) g2 (by omega) (by omega) h2'
        refine ⟨m :: extra2, g3, ?_, ?_, ?_, ?_⟩
        · show Node.sliceLoop offset count rest stop (acc ++ [m]) g2 = _
          rw [heq2]
          simp
        · rw [listContent_cons, hcont2, hcont, listContent_cons]
          have hA : (ch.content.length : Int) = ch.count := hchlen
          rw [List.drop_append_eq_append_drop, List.take_append_eq_append_take]
          have hdn : (offset - seen).toNat < ch.content.length := by omega
          have hdn0 : (offset - seen).toNat - ch.content.length = 0 := by omega
          rw [hdn0, List.drop_zero]
          congr 1
          · -- the slice of the head child
            have : (start - seen).toNat = (offset - seen).toNat := by omega
            rw [this]
            rw [List.take_eq_take]
            simp only [List.length_drop]
            omega
          · -- the tail contribution
            have hst : (offset - stop).toNat = 0 := by omega
            have hms : max offset stop = stop := by omega
            rw [hst, hms, List.drop_zero]
            rw [List.take_eq_take]
            simp only [List.length_take, List.length_drop]
            omega
        · rw [sumCounts_cons, hsum2, hcount]
          omega
        · intro x hx
          rcases List.mem_cons.mp hx with rfl | hx
          · exact hwfm
          · exact hwf2 x hx
      · -- the child lies fully outside the requested range
        rw [if_neg hover]
        -- either the child sits entirely before the range, or it is empty
        have hcase : seen + ch.count ≤ offset ∨ ch.count = 0 := by omega
        have hstop_eq : stop = seen + ch.count := by omega
        have h2' : offset + count ≤ stop + sumCounts rest := by omega
        obtain ⟨extra2, g3, heq2, hcont2, hsum2, hwf2⟩ :=
          ih (fun x hx => hwf x (by simp [hx])) (fun x hx => hok x (by simp [hx]))
            stop acc g (by omega) (by omega) h2'
        refine ⟨extra2, g3, heq2, ?_, ?_, hwf2⟩
        · rw [hcont2, listContent_cons]
          rcases hcase with hcase | hcase
          · -- child fully before the range
            rw [List.drop_append_eq_append_drop]
            have hge : (offset - seen).toNat ≥ ch.content.length := by omega
            rw [List.drop_eq_nil_of_le hge, List.nil_append]
            have harg : (offset - seen).toNat - ch.content.length = (offset - stop).toNat := by
              omega
            rw [harg]
            congr 1
            omega
          · -- empty child contributes nothing
            have hemp : ch.content = [] := content_of_count_eq_zero hcase
            rw [hemp, List.nil_append]
            have e2 : (offset - stop).toNat = (offset - seen).toNat := by omega
            have e1 : (offset + count - max offset stop).toNat =
                (offset + count - start).toNat := by omega
            rw [e1, e2]
        · rw [hsum2]
          omega
    · have hseen : seen = offset + count := by omega
      refine ⟨[], g, ?_, ?_, ?_, by simp⟩
      · rw [Node.sliceLoop, if_neg hlt]
        simp
      · have : max offset seen = seen := by omega
        rw [this, hseen]
        simp
      · have : max offset seen = seen := by omega
        rw [this, hseen]
        simp

theorem slice_ok : ∀ n : Node α, SliceOK n := by
  intro n
  induction n using Node.sizeOf_induction with
  | step n ih =>
    intro hwf offset count ho hc hval g
    rw [Node.slice]
    rw [if_neg (by omega)]
    by_cases hfast : offset = 0 ∧ count = n.count
    · rw [if_pos hfast]
      refine ⟨n, g, rfl, ?_, hfast.2.symm, hwf⟩
      rw [hfast.1]
      simp only [Int.toNat_zero, List.drop_zero]
      rw [hfast.2]
      have := content_length n hwf
      rw [List.take_of_length_le (by omega)]
    · rw [if_neg hfast]
      by_cases hzero : count = 0
      · rw [if_pos hzero]
        refine ⟨Node.mk (g + 1) [] [] 0, g + 1, rfl, ?_, by simp [hzero], ?_⟩
        · rw [content_mk, hzero]
          simp
        · rw [wf_mk_iff]
          simp
      · rw [if_neg hzero]
        by_cases hleaf : n.children.isEmpty
        · rw [if_pos hleaf]
          have hch : n.children = [] := by simpa using hleaf
          have hlen := hwf.leaf_len hch
          refine ⟨_, g + 1, rfl, ?_, by simp, ?_⟩
          · rw [content_mk, if_neg hzero, if_pos hleaf]
            rw [content_eq n, if_neg (by omega), if_pos hleaf]
            rfl
          · rw [wf_mk_iff]
            refine ⟨by omega, ?_, ?_, ?_, ?_⟩
            · intro _
              simp [listSlice]
              omega
            · intro hcon
              exact absurd hch hcon
            · intro h0
              exact absurd h0 hzero
            · rw [hch]
              intro x hx
              simp at hx
        · rw [if_neg hleaf]
          have hch : n.children ≠ [] := by simpa using hleaf
          have hsum := hwf.sum_children hch
          obtain ⟨extra, g2, heq, hcont, hsumx, hwfx⟩ :=
            sliceLoop_spec offset count ho (by omega) n.children
              (fun x hx => hwf.child hx) (fun x hx => ih x (Node.sizeOf_lt_of_mem hx))
              0 [] g (by omega) (by omega) (by omega)
          rw [heq]
          simp only [List.nil_append]
          have hmax : max offset 0 = offset := by omega
          rw [hmax] at hcont hsumx
          have hsum_simp : sumCounts extra = count := by omega
          have hne : extra ≠ [] := sumCounts_ne_nil (by omega)
          refine ⟨_, g2 + 1, rfl, ?_, by simp, ?_⟩
          · rw [content_mk, if_neg hzero, if_neg (by simpa using hne)]
            rw [hcont, content_eq n, if_neg (by omega), if_neg hleaf]
            rw [show (offset + count - offset).toNat = count.toNat by omega,
              show (offset - 0).toNat = offset.toNat by omega]
          · rw [wf_mk_iff]
            refine ⟨by omega, ?_, ?_, ?_, hwfx⟩
            · intro hcon
              exact absurd hcon hne
            · intro _
              omega
            · intro h0
              exact absurd h0 hzero

/-! ### Splice specification -/

/-- The specification of `Splice` on one node: on a well-formed receiver, a
valid range and a well-formed replacement it succeeds and returns the
content with `[offset, offset+count)` replaced by the replacement's
content, preserving well-formedness. -/
def SpliceOK (n : Node α) : Prop :=
  n.wf → ∀ (offset count : Int) (replacement : Node α), replacement.wf →
    0 ≤ offset → 0 ≤ count → offset + count ≤ n.count →
    ∀ g : Nat, ∃ m g2, n.splice offset count replacement g = some (m, g2) ∧
      m.content = n.content.take offset.toNat ++ replacement.content ++
        n.content.drop (offset + count).toNat ∧
      m.count = n.count + (replacement.count - count) ∧ m.wf

theorem spliceSlow_spec {n : Node α} (hn : n.wf) {r : Node α} (hr : r.wf)
    {offset count : Int} (ho : 0 ≤ offset) (hc : 0 ≤ count)
    (hval : offset + count ≤ n.count) (g : Nat) :
    ∃ m g2, n.spliceSlow offset count r g = some (m, g2) ∧
      m.content = n.content.take offset.toNat ++ r.content ++
        n.content.drop (offset + count).toNat ∧
      m.count = n.count + (r.count - count) ∧ m.wf := by
  have hlen := content_length n hn
  obtain ⟨right, g1, he1, hc1, hn1, hw1⟩ :=
    slice_ok n hn (offset + count) (n.count - offset - count) (by omega) (by omega)
      (by omega) g
  obtain ⟨leftN, g2, he2, hc2, hn2, hw2⟩ :=
    slice_ok n hn 0 offset (by omega) ho (by omega) g1
  have hrc : right.content = n.content.drop (offset + count).toNat := by
    rw [hc1]
    refine List.take_of_length_le ?_
    simp only [List.length_drop]
    omega
  have hlc : leftN.content = n.content.take offset.toNat := by
    rw [hc2]
    simp
  have hj1w : ((leftN.join r g2).1).wf := join_wf hw2 hr g2
  simp only [Node.spliceSlow, he1, he2]
  refine ⟨((leftN.join r g2).1.join right (leftN.join r g2).2).1,
    ((leftN.join r g2).1.join right (leftN.join r g2).2).2, rfl, ?_, ?_, ?_⟩
  · rw [join_content hj1w hw1, join_content hw2 hr, hlc, hrc]
  · rw [join_count, join_count, hn1, hn2]
    omega
  · exact join_wf hj1w hw1 _

theorem spliceScan_le {offset count : Int} {r : Node α} {cs : List (Node α)}
    {seen : Int} {g : Nat} {res}
    (h : Node.spliceScan offset count r cs seen g = some res) : seen ≤ offset := by
  cases cs with
  | nil => simp [Node.spliceScan] at h
  | cons ch rest =>
    rw [Node.spliceScan] at h
    by_cases hle : seen ≤ offset
    · exact hle
    · rw [if_neg hle] at h
      exact absurd h (by simp)

/-- When the fast-path-C scan falls through, no child both starts at or
before `offset` and extends to `offset+count` or beyond. -/
theorem spliceScan_none (offset count : Int) (r : Node α) :
    ∀ (cs : List (Node α)) (seen : Int) (g : Nat),
      (∀ ch ∈ cs, 0 ≤ ch.count) →
      Node.spliceScan offset count r cs seen g = none →
      ∀ pre ch post, cs = pre ++ ch :: post →
        ¬(seen + sumCounts pre ≤ offset ∧
          offset + count ≤ seen + sumCounts pre + ch.count) := by
  intro cs
  induction cs with
  | nil =>
    intro seen g _ _ pre ch post hdec
    exact absurd hdec (by simp)
  | cons ch0 rest ih =>
    intro seen g h0 hnone pre ch post hdec
    rw [Node.spliceScan] at hnone
    by_cases hle : seen ≤ offset
    · rw [if_pos hle] at hnone
      by_cases hcont : seen + ch0.count ≥ offset + count
      · rw [if_pos hcont] at hnone
        exact absurd hnone (by simp)
      · rw [if_neg hcont] at hnone
        cases pre with
        | nil =>
          simp at hdec
          rintro ⟨h1, h2⟩
          rw [hdec.1] at hcont
          simp at h1 h2
          omega
        | cons p pre' =>
          simp at hdec
          obtain ⟨rfl, hdec⟩ := hdec
          rcases hrec : Node.spliceScan offset count r rest (seen + ch0.count) g with _ | resv
          · have := ih (seen + ch0.count) g (fun x hx => h0 x (by simp [hx])) hrec
              pre' ch post hdec
            rw [sumCounts_cons]
            intro hand
            exact this ⟨by omega, by omega⟩
          · rw [hrec] at hnone
            cases resv with
            | none => simp at hnone
            | some p => simp at hnone
    · -- the scan stopped before this child: everything from here starts past offset
      have hpos : 0 ≤ sumCounts pre := by
        refine sumCounts_nonneg (fun x hx => h0 x ?_)
        rw [hdec]
        exact List.mem_append.mpr (Or.inl hx)
      intro hand
      omega

/-- When the fast-path-C scan finds a containing child, the recursive splice
succeeds and produces the children list with the edit applied in place. -/
theorem spliceScan_some (offset count : Int) {r : Node α} (hr : r.wf) (hc : 0 ≤ count) :
    ∀ (cs : List (Node α)) (seen : Int) (g : Nat) res,
      (∀ ch ∈ cs, ch.wf) → (∀ ch ∈ cs, SpliceOK ch) →
      Node.spliceScan offset count r cs seen g = some res →
      ∃ cs2 g2, res = some (cs2, g2) ∧
        listContent cs2 = (listContent cs).take (offset - seen).toNat ++ r.content ++
          (listContent cs).drop (offset - seen + count).toNat ∧
        sumCounts cs2 = sumCounts cs + (r.count - count) ∧
        (∀ x ∈ cs2, x.wf) ∧ cs2 ≠ [] := by
  intro cs
  induction cs with
  | nil =>
    intro seen g res _ _ h
    simp [Node.spliceScan] at h
  | cons ch rest ih =>
    intro seen g res hwf hok hscan
    have hle : seen ≤ offset := spliceScan_le hscan
    have hchwf := hwf ch (by simp)
    have hchlen : (ch.content.length : Int) = ch.count := content_length ch hchwf
    have hrestwf : ∀ x ∈ rest, x.wf := fun x hx => hwf x (by simp [hx])
    rw [Node.spliceScan, if_pos hle] at hscan
    by_cases hcont : seen + ch.count ≥ offset + count
    · rw [if_pos hcont] at hscan
      obtain ⟨ch2, g2, heq, hcont2, hcount2, hwf2⟩ :=
        hok ch (by simp) hchwf (offset - seen) count r hr (by omega) hc (by omega) g
      rw [heq] at hscan
      rw [Option.some.injEq] at hscan
      have hres : res = some (ch2 :: rest, g2) := hscan.symm.trans rfl
      refine ⟨ch2 :: rest, g2, hres, ?_, ?_, ?_, by simp⟩
      · rw [listContent_cons, listContent_cons, hcont2]
        rw [List.take_append_eq_append_take, List.drop_append_eq_append_drop]
        have h1 : (offset - seen).toNat - ch.content.length = 0 := by omega
        have h2 : (offset - seen + count).toNat - ch.content.length = 0 := by omega
        rw [h1, h2, List.take_zero, List.drop_zero, List.append_nil]
        have h3 : (offset - seen).toNat = (offset - seen).toNat := rfl
        simp [List.append_assoc]
      · rw [sumCounts_cons, sumCounts_cons, hcount2]
        omega
      · intro x hx
        rcases List.mem_cons.mp hx with rfl | hx
        · exact hwf2
        · exact hrestwf x hx
    · rw [if_neg hcont] at hscan
      rcases hrec : Node.spliceScan offset count r rest (seen + ch.count) g with _ | res'
      · rw [hrec] at hscan
        exact absurd hscan (by simp)
      · rw [hrec] at hscan
        have hle2 : seen + ch.count ≤ offset := spliceScan_le hrec
        obtain ⟨cs2', g2, hres', hcont', hsum', hwf', hne'⟩ :=
          ih (seen + ch.count) g res' hrestwf (fun x hx => hok x (by simp [hx])) hrec
        subst hres'
        simp only at hscan
        rw [Option.some.injEq] at hscan
        refine ⟨ch :: cs2', g2, hscan.symm, ?_, ?_, ?_, by simp⟩
        · rw [listContent_cons, listContent_cons, hcont']
          rw [List.take_append_eq_append_take, List.drop_append_eq_append_drop]
          have h1 : ch.content.length ≤ (offset - seen).toNat := by omega
          rw [List.take_of_length_le h1]
          have h2 : ch.content.length ≤ (offset - seen + count).toNat := by omega
          rw [List.drop_eq_nil_of_le h2, List.nil_append]
          have h3 : (offset - seen).toNat - ch.content.length =
              (offset - (seen + ch.count)).toNat := by omega
          have h4 : (offset - seen + count).toNat - ch.content.length =
              (offset - (seen + ch.count) + count).toNat := by omega
          rw [h3, h4]
          simp [List.append_assoc]
        · rw [sumCounts_cons, sumCounts_cons, hsum']
          omega
        · intro x hx
          rcases List.mem_cons.mp hx with rfl | hx
          · exact hchwf
          · exact hwf' x hx

/-- The classification loop of `spliceChildren` splits the children into a
left prefix (ending at or before `offset`), a middle group overlapping the
edit range, and a right suffix (starting at or after `offset+count`), and
returns exactly their lengths and count totals. -/
theorem classify_split (offset count : Int) :
    ∀ (cs : List (Node α)) (seen : Int), (∀ ch ∈ cs, 0 ≤ ch.count) →
    ∃ csL csM csR,
      cs = csL ++ csM ++ csR ∧
      classifyAux offset count cs seen =
        ((csL.length, sumCounts csL), (csR.length, sumCounts csR),
          (csM.length, sumCounts csM)) ∧
      (∀ pre ch post, csL = pre ++ ch :: post →
        seen + sumCounts pre + ch.count ≤ offset) ∧
      (∀ pre ch post, csM = pre ++ ch :: post →
        offset < seen + sumCounts csL + sumCounts pre + ch.count ∧
        seen + sumCounts csL + sumCounts pre < offset + count) ∧
      (∀ pre ch post, csR = pre ++ ch :: post →
        offset + count ≤ seen + sumCounts csL + sumCounts csM + sumCounts pre ∧
        offset < seen + sumCounts csL + sumCounts csM + sumCounts pre + ch.count) := by
  intro cs
  induction cs with
  | nil =>
    intro seen _
    refine ⟨[], [], [], by simp, by simp [classifyAux], ?_, ?_, ?_⟩ <;>
      (rintro pre ch post h; exact absurd h (by simp))
  | cons ch0 rest ih =>
    intro seen h0
    have hch0 : 0 ≤ ch0.count := h0 ch0 (by simp)
    obtain ⟨csL, csM, csR, hdec, heq, hL, hM, hR⟩ :=
      ih (seen + ch0.count) (fun x hx => h0 x (by simp [hx]))
    by_cases hcl : seen + ch0.count ≤ offset
    · -- head classified left
      refine ⟨ch0 :: csL, csM, csR, by simp [hdec], ?_, ?_, ?_, ?_⟩
      · simp only [classifyAux, heq, if_pos hcl]
        simp only [Prod.mk.injEq, List.length_cons, sumCounts_cons]
        and_intros <;> first | trivial | omega
      · rintro pre ch post hd
        cases pre with
        | nil =>
          simp at hd
          obtain ⟨rfl, rfl⟩ := hd
          simpa using hcl
        | cons p pre' =>
          simp at hd
          obtain ⟨rfl, hd⟩ := hd
          have := hL pre' ch post hd
          rw [sumCounts_cons]
          omega
      · rintro pre ch post hd
        have := hM pre ch post hd
        rw [sumCounts_cons]
        omega
      · rintro pre ch post hd
        have := hR pre ch post hd
        rw [sumCounts_cons]
        omega
    · by_cases hcr : seen ≥ offset + count
      · -- head classified right: everything after it is right as well
        have hLnil : csL = [] := by
          cases hLc : csL with
          | nil => rfl
          | cons c t =>
            have := hL [] c t (by simp [hLc])
            simp only [sumCounts_nil] at this
            have hc0 : 0 ≤ c.count := by
              refine h0 c ?_
              simp [hdec, hLc]
            omega
        have hMnil : csM = [] := by
          cases hMc : csM with
          | nil => rfl
          | cons c t =>
            have := hM [] c t (by simp [hMc])
            rw [hLnil] at this
            simp only [sumCounts_nil] at this
            omega
        subst hLnil hMnil
        refine ⟨[], [], ch0 :: csR, by simpa using hdec, ?_, ?_, ?_, ?_⟩
        · simp only [classifyAux, heq, if_neg hcl, if_pos hcr]
          simp only [Prod.mk.injEq, List.length_cons, sumCounts_cons, sumCounts_nil]
          and_intros <;> first | trivial | omega
        · rintro pre ch post h
          exact absurd h (by simp)
        · rintro pre ch post h
          exact absurd h (by simp)
        · rintro pre ch post hd
          cases pre with
          | nil =>
            simp at hd
            obtain ⟨rfl, rfl⟩ := hd
            simp
            omega
          | cons p pre' =>
            simp at hd
            obtain ⟨rfl, hd⟩ := hd
            have := hR pre' ch post hd
            simp at this
            rw [sumCounts_cons]
            simp
            omega
      · -- head classified mid
        have hLnil : csL = [] := by
          cases hLc : csL with
          | nil => rfl
          | cons c t =>
            have := hL [] c t (by simp [hLc])
            simp only [sumCounts_nil] at this
            have hc0 : 0 ≤ c.count := by
              refine h0 c ?_
              simp [hdec, hLc]
            omega
        subst hLnil
        refine ⟨[], ch0 :: csM, csR, by simpa using hdec, ?_, ?_, ?_, ?_⟩
        · simp only [classifyAux, heq, if_neg hcl, if_neg hcr]
          simp only [Prod.mk.injEq, List.length_cons, sumCounts_cons, sumCounts_nil]
          and_intros <;> first | trivial | omega
        · rintro pre ch post h
          exact absurd h (by simp)
        · rintro pre ch post hd
          cases pre with
          | nil =>
            simp at hd
            obtain ⟨rfl, rfl⟩ := hd
            simp
            omega
          | cons p pre' =>
            simp at hd
            obtain ⟨rfl, hd⟩ := hd
            have := hM pre' ch post hd
            simp at this
            rw [sumCounts_cons]
            simp
            omega
        · rintro pre ch post hd
          have := hR pre ch post hd
          simp at this
          rw [sumCounts_cons]
          simp
          omega

/-- The "inner" node assembled by `spliceChildren` is inserted either as its
children (when it has some) or as a single child; either way the inserted
群 carries the inner content and count. -/
theorem inner_insert_spec {inner : Node α} (h : inner.wf) :
    listContent (if inner.children.isEmpty then [inner] else inner.children) =
        inner.content ∧
      sumCounts (if inner.children.isEmpty then [inner] else inner.children) =
        inner.count ∧
      (∀ x ∈ (if inner.children.isEmpty then [inner] else inner.children), x.wf) ∧
      (if inner.children.isEmpty then [inner] else inner.children) ≠ [] := by
  by_cases hemp : inner.children.isEmpty
  · rw [if_pos hemp]
    refine ⟨listContent_singleton inner, ?_, ?_, by simp⟩
    · rw [sumCounts_cons, sumCounts_nil]
      ring
    · intro x hx
      rw [List.mem_singleton] at hx
      subst hx
      exact h
  · rw [if_neg hemp]
    have hne : inner.children ≠ [] := by simpa using hemp
    have hcnt : inner.count ≠ 0 := by
      intro h0
      exact hne (h.empty_struct h0).1
    refine ⟨?_, (h.sum_children hne).symm, fun x hx => h.child hx, hne⟩
    rw [content_eq, if_neg hcnt, if_neg hemp]

/-- Specification of `spliceChildren` on the fast path D: given that no
single child contains the edit range, it succeeds and splices the range at
the children level. -/
theorem spliceChildren_spec {n : Node α} (hn : n.wf) {r : Node α} (hr : r.wf)
    {offset count : Int} (ho : 0 ≤ offset) (hc : 0 ≤ count)
    (hval : offset + count ≤ n.count)
    (hnotA : ¬(offset = 0 ∧ count = n.count))
    (hnotB : ¬(offset = n.count ∧ count = 0))
    (hch : n.children ≠ [])
    (hnone : ∀ pre ch post, n.children = pre ++ ch :: post →
      ¬(sumCounts pre ≤ offset ∧ offset + count ≤ sumCounts pre + ch.count))
    (g : Nat) :
    ∃ m g2, n.spliceChildren offset count r g = some (m, g2) ∧
      m.content = n.content.take offset.toNat ++ r.content ++
        n.content.drop (offset + count).toNat ∧
      m.count = n.count - count + r.count ∧ m.wf := by
  obtain ⟨csL, csM, csR, hdec, hcls, hLf, hMf, hRf⟩ :=
    classify_split offset count n.children 0 (fun x hx => (hn.child hx).count_nonneg)
  simp only [zero_add] at hLf hMf hRf
  have hwfall : ∀ x ∈ n.children, x.wf := fun x hx => hn.child hx
  have hLwf : ∀ x ∈ csL, x.wf := fun x hx => hwfall x (by rw [hdec]; simp [hx])
  have hMwf : ∀ x ∈ csM, x.wf := fun x hx => hwfall x (by rw [hdec]; simp [hx])
  have hRwf : ∀ x ∈ csR, x.wf := fun x hx => hwfall x (by rw [hdec]; simp [hx])
  have hL0 : 0 ≤ sumCounts csL := sumCounts_nonneg (fun x hx => (hLwf x hx).count_nonneg)
  have hM0 : 0 ≤ sumCounts csM := sumCounts_nonneg (fun x hx => (hMwf x hx).count_nonneg)
  have hR0 : 0 ≤ sumCounts csR := sumCounts_nonneg (fun x hx => (hRwf x hx).count_nonneg)
  have hsum : n.count = sumCounts csL + sumCounts csM + sumCounts csR := by
    have hx := hn.sum_children hch
    rw [hdec, sumCounts_append, sumCounts_append] at hx
    omega
  have hLC : sumCounts csL ≤ offset := by
    rcases List.eq_nil_or_concat csL with hnil | ⟨pre, lastc, hconc⟩
    · rw [hnil]
      simpa using ho
    · rw [List.concat_eq_append] at hconc
      have := hLf pre lastc [] (by simp [hconc])
      rw [hconc, sumCounts_append, sumCounts_cons, sumCounts_nil]
      omega
  have hMne : csM ≠ [] := by
    intro hMnil
    rcases hRc : csR with _ | ⟨r0, csR'⟩
    · have hall : n.count ≤ offset := by
        rw [hsum, hMnil, hRc]
        simpa using hLC
      exact hnotB ⟨by omega, by omega⟩
    · have h1 := hRf [] r0 csR' (by simp [hRc])
      rw [hMnil] at h1
      simp at h1
      have hr00 : 0 ≤ r0.count := (hRwf r0 (by rw [hRc]; simp)).count_nonneg
      have := hnone csL r0 csR' (by rw [hdec, hMnil, hRc]; simp)
      exact this ⟨by omega, by omega⟩
  obtain ⟨mh, csM1, hMc⟩ : ∃ mh csM1, csM = mh :: csM1 := by
    cases csM with
    | nil => exact absurd rfl hMne
    | cons a b => exact ⟨a, b, rfl⟩
  obtain ⟨csM2, rlast, hMc2⟩ : ∃ csM2 rlast, csM = csM2 ++ [rlast] := by
    rcases List.eq_nil_or_concat csM with hh | ⟨a, b, hh⟩
    · exact absurd hh hMne
    · exact ⟨a, b, by rw [hh, List.concat_eq_append]⟩
  have hmhwf : mh.wf := hMwf mh (by rw [hMc]; simp)
  have hrlwf : rlast.wf := hMwf rlast (by rw [hMc2]; simp)
  have hmh := hMf [] mh csM1 (by simp [hMc])
  simp only [sumCounts_nil, add_zero] at hmh
  have hrl := hMf csM2 rlast [] (by simp [hMc2])
  have hnext : offset + count ≤ sumCounts csL + sumCounts csM := by
    rcases hRc : csR with _ | ⟨r0, csR'⟩
    · rw [hRc] at hsum
      simp at hsum
      omega
    · have := hRf [] r0 csR' (by simp [hRc])
      simp at this
      omega
  have hM2sum : sumCounts csM = sumCounts csM2 + rlast.count := by
    rw [hMc2, sumCounts_append, sumCounts_cons, sumCounts_nil]
    ring
  have hMlen : csM.length = csM1.length + 1 := by rw [hMc]; simp
  have hdec2 : n.children = csL ++ (csM ++ csR) := by
    rw [hdec, List.append_assoc]
  -- the indexed children
  have hgetL : n.children[csL.length]? = some mh := by
    rw [hdec2, List.getElem?_append_right (le_refl csL.length)]
    simp [hMc]
  have hgetR : n.children[csL.length + csM.length - 1]? = some rlast := by
    rw [hdec2, List.getElem?_append_right (show csL.length ≤ csL.length + csM.length - 1 by omega)]
    have h1 : csL.length + csM.length - 1 - csL.length = csM.length - 1 := by omega
    rw [h1, List.getElem?_append_left (show csM.length - 1 < csM.length by omega)]
    have h2 : csM.length - 1 = csM2.length := by rw [hMc2]; simp
    rw [h2, hMc2]
    exact List.getElem?_concat_length csM2 rlast
  -- the boundary slices
  obtain ⟨iL, g1, heL, hcL, hnL, hwL⟩ :=
    slice_ok mh hmhwf 0 (offset - sumCounts csL) (le_refl 0) (by omega) (by omega) g
  have hrllen : (rlast.content.length : Int) = rlast.count := content_length rlast hrlwf
  obtain ⟨iR, g2, heR, hcR, hnR, hwR⟩ :=
    slice_ok rlast hrlwf (offset + count - (n.count - sumCounts csR - rlast.count))
      (rlast.count - (offset + count - (n.count - sumCounts csR - rlast.count)))
      (by omega) (by omega) (by omega) g1
  have hr0 := hr.count_nonneg
  have hmhlen : (mh.content.length : Int) = mh.count := content_length mh hmhwf
  have hcR2 : iR.content =
      rlast.content.drop (offset + count - (n.count - sumCounts csR - rlast.count)).toNat := by
    rw [hcR]
    refine List.take_of_length_le ?_
    simp only [List.length_drop]
    omega
  have hcL2 : iL.content = mh.content.take (offset - sumCounts csL).toNat := by
    rw [hcL]
    simp
  have hn0 : n.count ≠ 0 := by
    intro h0
    exact hch (hn.empty_struct h0).1
  have hC0 : n.count - count + r.count ≠ 0 := by
    intro h0
    have hx : count = n.count ∧ r.count = 0 ∧ offset = 0 := by omega
    exact hnotA ⟨hx.2.2, hx.1⟩
  have hLM0 : ¬(csL.length + csM.length = 0) := by omega
  have htakeL : n.children.take csL.length = csL := by
    rw [hdec2]
    exact List.take_left csL _
  have hdropR : n.children.drop (csL.length + csM.length) = csR := by
    have hx : csL.length + csM.length = (csL ++ csM).length := by simp
    rw [hdec, hx]
    exact List.drop_left _ _
  have hALen : ((listContent csL).length : Int) = sumCounts csL := listContent_length hLwf
  have hM2len : ((listContent csM2).length : Int) = sumCounts csM2 :=
    listContent_length (fun x hx => hMwf x (by simp [hMc2, hx]))
  have hBsplit : listContent csM = mh.content ++ listContent csM1 := by
    rw [hMc, listContent_cons]
  have hBsplit2 : listContent csM = listContent csM2 ++ rlast.content := by
    rw [hMc2, listContent_append, listContent_singleton]
  have hBlen : ((listContent csM).length : Int) = sumCounts csM := listContent_length hMwf
  have hncontent : n.content = listContent csL ++ listContent csM ++ listContent csR := by
    rw [content_eq n, if_neg hn0, if_neg (by simpa using hch), hdec, listContent_append,
      listContent_append]
  have htake : n.content.take offset.toNat =
      listContent csL ++ mh.content.take (offset - sumCounts csL).toNat := by
    rw [hncontent, List.take_append_eq_append_take, List.take_append_eq_append_take]
    rw [List.take_of_length_le (show (listContent csL).length ≤ offset.toNat by omega)]
    have hz : offset.toNat - (listContent csL ++ listContent csM).length = 0 := by
      simp only [List.length_append]
      omega
    rw [hz, List.take_zero, List.append_nil]
    rw [hBsplit, List.take_append_eq_append_take]
    have hz2 : offset.toNat - (listContent csL).length - mh.content.length = 0 := by omega
    rw [hz2, List.take_zero, List.append_nil]
    have hz3 : offset.toNat - (listContent csL).length = (offset - sumCounts csL).toNat := by
      omega
    rw [hz3]
  have hdropc : n.content.drop (offset + count).toNat =
      rlast.content.drop (offset + count - (n.count - sumCounts csR - rlast.count)).toNat ++
        listContent csR := by
    rw [hncontent, List.drop_append_eq_append_drop, List.drop_append_eq_append_drop]
    rw [List.drop_eq_nil_of_le (show (listContent csL).length ≤ (offset + count).toNat by omega),
      List.nil_append]
    have hz : (offset + count).toNat - (listContent csL ++ listContent csM).length = 0 := by
      simp only [List.length_append]
      omega
    rw [hz, List.drop_zero]
    rw [hBsplit2, List.drop_append_eq_append_drop]
    rw [List.drop_eq_nil_of_le
      (show (listContent csM2).length ≤ (offset + count).toNat - (listContent csL).length by
        omega), List.nil_append]
    have hz2 : (offset + count).toNat - (listContent csL).length - (listContent csM2).length =
        (offset + count - (n.count - sumCounts csR - rlast.count)).toNat := by omega
    rw [hz2]
  have hj1w : ((iL.join r g2).1).wf := join_wf hwL hr g2
  have hinw : (((iL.join r g2).1.join iR (iL.join r g2).2).1).wf := join_wf hj1w hwR _
  obtain ⟨hIc, hIs, hIw, hIne⟩ := inner_insert_spec hinw
  have hNC :
      (n.children.take csL.length ++
        (if (((iL.join r g2).1.join iR (iL.join r g2).2).1).children.isEmpty
          then [((iL.join r g2).1.join iR (iL.join r g2).2).1]
          else (((iL.join r g2).1.join iR (iL.join r g2).2).1).children) ++
        n.children.drop (csL.length + csM.length)) ≠ [] := by
    rw [htakeL, hdropR]
    intro hemp
    rcases List.append_eq_nil.mp hemp with ⟨hemp1, _⟩
    exact hIne (List.append_eq_nil.mp hemp1).2
  simp only [Node.spliceChildren, hcls, hgetL, heL, hgetR, heR, if_neg hLM0]
  refine ⟨_, _, rfl, ?_, ?_, ?_⟩
  · rw [content_mk, if_neg hC0, if_neg (by simpa using hNC)]
    rw [htakeL, hdropR, listContent_append, listContent_append, hIc]
    rw [join_content hj1w hwR, join_content hwL hr, hcL2, hcR2]
    rw [htake, hdropc]
    simp [List.append_assoc]
  · simp
  · rw [wf_mk_iff]
    refine ⟨by omega, ?_, ?_, ?_, ?_⟩
    · intro hemp
      exact absurd hemp hNC
    · intro _
      rw [htakeL, hdropR, sumCounts_append, sumCounts_append, hIs]
      rw [join_count, join_count, hnL, hnR]
      omega
    · intro h0
      exact absurd h0 hC0
    · intro x hx
      rw [htakeL, hdropR] at hx
      rcases List.mem_append.mp hx with hx | hx
      · rcases List.mem_append.mp hx with hx | hx
        · exact hLwf x hx
        · exact hIw x hx
      · exact hRwf x hx

theorem content_mk_self (i : Nat) (m : Node α) :
    (Node.mk i m.children m.leaf m.count).content = m.content := by
  rw [content_mk, content_eq]

theorem splice_ok : ∀ n : Node α, SpliceOK n := by
  intro n
  induction n using Node.sizeOf_induction with
  | step n ih =>
    intro hwf offset count r hr ho hc hval g
    have hr0 := hr.count_nonneg
    have hn0 := hwf.count_nonneg
    have hnlen := content_length n hwf
    rw [Node.splice]
    by_cases hA : offset = 0 ∧ count = n.count
    · rw [if_pos hA]
      refine ⟨_, _, rfl, ?_, by simp; omega, wf_mk_of_wf hr _⟩
      rw [content_mk_self, hA.1, hA.2]
      simp only [Int.toNat_zero, List.take_zero, List.nil_append, zero_add]
      rw [List.drop_eq_nil_of_le (by omega), List.append_nil]
    · rw [if_neg hA]
      by_cases hB : offset = n.count ∧ count = 0
      · rw [if_pos hB]
        refine ⟨(n.join r g).1, (n.join r g).2, rfl, ?_, ?_, join_wf hwf hr g⟩
        · rw [join_content hwf hr, hB.1, hB.2]
          rw [List.take_of_length_le (by omega)]
          rw [List.drop_eq_nil_of_le (by omega), List.append_nil]
        · rw [join_count]
          omega
      · rw [if_neg hB]
        rcases hscan : Node.spliceScan offset count r n.children 0 g with _ | res
        · -- fall through to fast path D or the slow path
          have hnone := spliceScan_none offset count r n.children 0 g
            (fun x hx => (hwf.child hx).count_nonneg) hscan
          simp only [zero_add] at hnone
          simp only [hscan]
          by_cases hemp : n.children.isEmpty
          · rw [dif_pos hemp]
            exact spliceSlow_spec hwf hr ho hc hval g
          · rw [dif_neg hemp]
            split_ifs with hcond
            · obtain ⟨m, g2, h1, h2, h3, h4⟩ :=
                spliceChildren_spec hwf hr ho hc hval hA hB (by simpa using hemp) hnone g
              exact ⟨m, g2, h1, h2, by omega, h4⟩
            · exact spliceSlow_spec hwf hr ho hc hval g
        · -- fast path C: a single child contains the edit range
          have hchne : n.children ≠ [] := by
            intro h
            rw [h] at hscan
            simp [Node.spliceScan] at hscan
          have hcnt0 : n.count ≠ 0 := by
            intro h0
            exact hchne (hwf.empty_struct h0).1
          obtain ⟨cs2, g2, hres, hcontS, hsumS, hwfS, hneS⟩ :=
            spliceScan_some offset count hr hc n.children 0 g res
              (fun x hx => hwf.child hx)
              (fun x hx => ih x (Node.sizeOf_lt_of_mem hx)) hscan
          subst hres
          simp only [hscan]
          have hC0 : n.count + (r.count - count) ≠ 0 := by
            intro h0
            have hx : count = n.count ∧ r.count = 0 ∧ offset = 0 := by omega
            exact hA ⟨hx.2.2, hx.1⟩
          have hncontent : n.content = listContent n.children := by
            rw [content_eq n, if_neg hcnt0, if_neg (by simpa using hchne)]
          refine ⟨_, _, rfl, ?_, by simp, ?_⟩
          · rw [content_mk, if_neg hC0, if_neg (by simpa using hneS)]
            rw [hcontS, hncontent]
            rw [show (offset - 0).toNat = offset.toNat by omega,
              show (offset - 0 + count).toNat = (offset + count).toNat by omega]
          · rw [wf_mk_iff]
            refine ⟨by omega, ?_, ?_, ?_, hwfS⟩
            · intro hemp
              exact absurd hemp hneS
            · intro _
              rw [hsumS, ← hwf.sum_children hchne]
            · intro h0
              exact absurd h0 hC0

/-! ### Flatten -/

theorem leaves_prop : ∀ n : Node α, n.wf →
    ∀ l ∈ n.leaves, l.wf ∧ l.children = [] ∧ l.count ≠ 0 := by
  intro n
  induction n using Node.sizeOf_induction with
  | step n ih =>
    intro hwf l hl
    rw [Node.leaves] at hl
    by_cases h0 : n.count = 0
    · simp [h0] at hl
    · rw [if_neg h0] at hl
      by_cases hch : n.children.isEmpty
      · rw [if_pos hch] at hl
        rw [List.mem_singleton] at hl
        subst hl
        exact ⟨hwf, by simpa using hch, h0⟩
      · rw [if_neg hch] at hl
        have : ∀ cs : List (Node α), (∀ c ∈ cs, c.wf) →
            (∀ c ∈ cs, sizeOf c < sizeOf n) →
            ∀ l ∈ Node.leavesList cs, l.wf ∧ l.children = [] ∧ l.count ≠ 0 := by
          intro cs
          induction cs with
          | nil => intro _ _ l hl; rw [leavesList_nil] at hl; simp at hl
          | cons c rest ihl =>
            intro hcs hsz l hl
            rw [leavesList_cons, List.mem_append] at hl
            rcases hl with hl | hl
            · exact ih c (hsz c (by simp)) (hcs c (by simp)) l hl
            · exact ihl (fun x hx => hcs x (by simp [hx]))
                (fun x hx => hsz x (by simp [hx])) l hl
        exact this n.children (fun c hc => hwf.child hc)
          (fun c hc => Node.sizeOf_lt_of_mem hc) l hl

theorem leaves_sum : ∀ n : Node α, n.wf → sumCounts n.leaves = n.count := by
  intro n
  induction n using Node.sizeOf_induction with
  | step n ih =>
    intro hwf
    rw [Node.leaves]
    by_cases h0 : n.count = 0
    · simp [h0]
    · rw [if_neg h0]
      by_cases hch : n.children.isEmpty
      · rw [if_pos hch]
        rw [sumCounts_cons, sumCounts_nil]
        ring
      · rw [if_neg hch]
        have hsum := hwf.sum_children (by simpa using hch)
        rw [hsum]
        have : ∀ cs : List (Node α), (∀ c ∈ cs, c.wf) →
            (∀ c ∈ cs, sizeOf c < sizeOf n) →
            sumCounts (Node.leavesList cs) = sumCounts cs := by
          intro cs
          induction cs with
          | nil => intro _ _; rw [leavesList_nil]
          | cons c rest ihl =>
            intro hcs hsz
            rw [leavesList_cons, sumCounts_append, sumCounts_cons]
            rw [ih c (hsz c (by simp)) (hcs c (by simp))]
            rw [ihl (fun x hx => hcs x (by simp [hx])) (fun x hx => hsz x (by simp [hx]))]
        exact this n.children (fun c hc => hwf.child hc)
          (fun c hc => Node.sizeOf_lt_of_mem hc)

/-- A leaf node's content is its leaf value. -/
theorem leaf_content {l : Node α} (hch : l.children = []) (h0 : l.count ≠ 0) :
    l.content = l.leaf := by
  rw [content_eq, if_neg h0, if_pos (by simpa using hch)]

theorem leafConcat_eq_listContent {lfs : List (Node α)}
    (h : ∀ l ∈ lfs, l.children = [] ∧ l.count ≠ 0) :
    leafConcat lfs = listContent lfs := by
  induction lfs with
  | nil => simp [leafConcat]
  | cons l rest ih =>
    rw [leafConcat, listContent_cons, leaf_content (h l (by simp)).1 (h l (by simp)).2]
    rw [ih (fun x hx => h x (by simp [hx]))]

/-- Invariant of the `Flatten` accumulation over the visited leaves. -/
theorem flattenFold_spec (chunkSize : Int) :
    ∀ (lfs : List (Node α)), (∀ l ∈ lfs, l.wf ∧ l.children = [] ∧ 0 < l.count) →
    ∀ (children0 leafs0 : List (Node α)) (count0 : Int) (g0 : Nat),
      (∀ ch ∈ children0, ch.wf) →
      (∀ l ∈ leafs0, l.wf ∧ l.children = [] ∧ 0 < l.count) →
      count0 = sumCounts leafs0 →
      listContent (flattenFold chunkSize lfs (children0, leafs0, count0, g0)).1 ++
          listContent (flattenFold chunkSize lfs (children0, leafs0, count0, g0)).2.1 =
        listContent children0 ++ listContent leafs0 ++ listContent lfs ∧
      sumCounts (flattenFold chunkSize lfs (children0, leafs0, count0, g0)).1 +
          sumCounts (flattenFold chunkSize lfs (children0, leafs0, count0, g0)).2.1 =
        sumCounts children0 + sumCounts leafs0 + sumCounts lfs ∧
      (∀ ch ∈ (flattenFold chunkSize lfs (children0, leafs0, count0, g0)).1, ch.wf) ∧
      (∀ l ∈ (flattenFold chunkSize lfs (children0, leafs0, count0, g0)).2.1,
        l.wf ∧ l.children = [] ∧ 0 < l.count) ∧
      (flattenFold chunkSize lfs (children0, leafs0, count0, g0)).2.2.1 =
        sumCounts (flattenFold chunkSize lfs (children0, leafs0, count0, g0)).2.1 := by
  intro lfs
  induction lfs with
  | nil =>
    intro _ children0 leafs0 count0 g0 hch0 hlf0 hcnt0
    rw [flattenFold]
    refine ⟨by simp, by simp, hch0, hlf0, hcnt0⟩
  | cons lf rest ih =>
    intro hlfs children0 leafs0 count0 g0 hch0 hlf0 hcnt0
    have hlf := hlfs lf (by simp)
    have hrest : ∀ l ∈ rest, l.wf ∧ l.children = [] ∧ 0 < l.count :=
      fun l hl => hlfs l (by simp [hl])
    rw [flattenFold]
    by_cases hcut : ((leafs0 ++ [lf]).length : Int) = chunkSize
    · rw [if_pos hcut]
      have hchunkwf : (Node.mk (g0 + 1) (leafs0 ++ [lf]) [] (count0 + lf.count)).wf := by
        rw [wf_mk_iff]
        have hsum2 : count0 + lf.count = sumCounts (leafs0 ++ [lf]) := by
          rw [sumCounts_append, sumCounts_cons, sumCounts_nil, hcnt0]
          ring
        have hpos : 0 < count0 + lf.count := by
          have : 0 ≤ sumCounts leafs0 :=
            sumCounts_nonneg (fun x hx => by have := hlf0 x hx; omega)
          omega
        refine ⟨by omega, ?_, fun _ => hsum2, by intro h; omega, ?_⟩
        · intro hemp
          exact absurd (List.append_eq_nil.mp hemp).2 (by simp)
        · intro x hx
          rcases List.mem_append.mp hx with hx | hx
          · exact (hlf0 x hx).1
          · rw [List.mem_singleton] at hx
            subst hx
            exact hlf.1
      obtain ⟨ih1, ih2, ih3, ih4, ih5⟩ := ih hrest
        (children0 ++ [Node.mk (g0 + 1) (leafs0 ++ [lf]) [] (count0 + lf.count)]) [] 0 (g0 + 1)
        (by
          intro x hx
          rcases List.mem_append.mp hx with hx | hx
          · exact hch0 x hx
          · rw [List.mem_singleton] at hx
            subst hx
            exact hchunkwf)
        (by simp) (by simp)
      refine ⟨?_, ?_, ih3, ih4, ih5⟩
      · rw [ih1]
        rw [listContent_append, listContent_singleton, listContent_cons]
        rw [content_mk]
        have hpos : 0 < count0 + lf.count := by
          have : 0 ≤ sumCounts leafs0 :=
            sumCounts_nonneg (fun x hx => by have := hlf0 x hx; omega)
          omega
        rw [if_neg (by omega), if_neg (by simp)]
        rw [listContent_append, listContent_singleton]
        rw [leaf_content hlf.2.1 (by omega)]
        simp [leaf_content, List.append_assoc, listContent_cons]
      · rw [ih2]
        rw [sumCounts_append, sumCounts_cons, sumCounts_nil, sumCounts_cons]
        simp only [Node.count_mk]
        rw [hcnt0]
        ring
    · rw [if_neg hcut]
      obtain ⟨ih1, ih2, ih3, ih4, ih5⟩ := ih hrest children0 (leafs0 ++ [lf])
        (count0 + lf.count) g0 hch0
        (by
          intro x hx
          rcases List.mem_append.mp hx with hx | hx
          · exact hlf0 x hx
          · rw [List.mem_singleton] at hx
            subst hx
            exact hlf)
        (by rw [sumCounts_append, sumCounts_cons, sumCounts_nil, hcnt0]; ring)
      refine ⟨?_, ?_, ih3, ih4, ih5⟩
      · rw [ih1, listContent_append, listContent_singleton, listContent_cons]
        rw [leaf_content hlf.2.1 (by omega)]
        simp [leaf_content, List.append_assoc]
      · rw [ih2, sumCounts_append, sumCounts_cons, sumCounts_nil, sumCounts_cons]
        ring

/-- `Flatten` preserves the flattened content, the count, and
well-formedness. -/
theorem flatten_spec {n : Node α} (hn : n.wf) (chunkSize : Int) (g : Nat) :
    ((n.flatten chunkSize g).1).content = n.content ∧
    ((n.flatten chunkSize g).1).count = n.count ∧
    ((n.flatten chunkSize g).1).wf := by
  by_cases h0 : n.count = 0
  · have hlv : n.leaves = [] := by rw [Node.leaves, if_pos h0]
    obtain ⟨hc1, hc2⟩ := hn.empty_struct h0
    rw [Node.flatten, hlv, flattenFold]
    simp only [List.isEmpty_nil, if_true]
    refine ⟨?_, by simp, ?_⟩
    · rw [content_mk, if_pos h0, content_of_count_eq_zero h0]
    · rw [wf_mk_iff]
      refine ⟨by omega, ?_, by simp, fun _ => ⟨rfl, hc2⟩, by simp⟩
      intro _
      rw [hc2]
      simpa using h0
  · have hprops := leaves_prop n hn
    have hlfs : ∀ l ∈ n.leaves, l.wf ∧ l.children = [] ∧ 0 < l.count := by
      intro l hl
      obtain ⟨p1, p2, p3⟩ := hprops l hl
      exact ⟨p1, p2, by have := p1.count_nonneg; omega⟩
    obtain ⟨h1, h2, h3, h4, h5⟩ :=
      flattenFold_spec chunkSize n.leaves hlfs [] [] 0 g (by simp) (by simp) (by simp)
    have hlsum : sumCounts n.leaves = n.count := leaves_sum n hn
    have hlcontent : listContent n.leaves = n.content := by
      rw [← leafConcat_eq_listContent (fun l hl => ⟨(hlfs l hl).2.1, by
        have := (hlfs l hl).2.2; omega⟩)]
      rfl
    rw [Node.flatten]
    rcases hst : flattenFold chunkSize n.leaves ([], [], 0, g) with ⟨children1, st2⟩
    rcases st2 with ⟨leafs1, st3⟩
    rcases st3 with ⟨count1, g1⟩
    rw [hst] at h1 h2 h3 h4 h5
    simp only [hst]
    simp only at h1 h2 h3 h4 h5
    simp only [listContent_nil, List.nil_append, sumCounts_nil, add_zero, zero_add] at h1 h2
    by_cases hle : leafs1.isEmpty
    · have hle2 : leafs1 = [] := by simpa using hle
      subst hle2
      simp only [List.isEmpty_nil, if_true]
      have hch1 : listContent children1 = n.content := by
        rw [← hlcontent, ← h1]
        simp
      have hsum1 : sumCounts children1 = n.count := by
        rw [← hlsum, ← h2]
        simp
      have hch1ne : children1 ≠ [] := by
        intro hemp
        subst hemp
        have hcl := content_length n hn
        rw [← hch1] at hcl
        simp at hcl
        exact h0 (by omega)
      refine ⟨?_, by simp, ?_⟩
      · rw [content_mk, if_neg h0, if_neg (by simpa using hch1ne), hch1]
      · rw [wf_mk_iff]
        refine ⟨hn.count_nonneg, ?_, fun _ => hsum1.symm, ?_, h3⟩
        · intro hemp
          exact absurd hemp hch1ne
        · intro hz
          exact absurd hz h0
    · rw [if_neg hle]
      have hle2 : leafs1 ≠ [] := by simpa using hle
      have hl1pos : 0 < sumCounts leafs1 := by
        rcases leafs1 with _ | ⟨a, t⟩
        · exact absurd rfl hle2
        · have ha := h4 a (by simp)
          have ht : 0 ≤ sumCounts t :=
            sumCounts_nonneg (fun x hx => by have := h4 x (by simp [hx]); omega)
          rw [sumCounts_cons]
          omega
      have hchunkwf : (Node.mk (g1 + 1) leafs1 [] count1).wf := by
        rw [wf_mk_iff]
        refine ⟨by omega, ?_, fun _ => h5, by intro hz; rw [hz] at h5; omega, ?_⟩
        · intro hemp
          exact absurd hemp hle2
        · intro x hx
          exact (h4 x hx).1
      have hchunkcontent : (Node.mk (g1 + 1) leafs1 [] count1).content =
          listContent leafs1 := by
        rw [content_mk, if_neg (by omega), if_neg (by simpa using hle2)]
      refine ⟨?_, by simp, ?_⟩
      · rw [content_mk, if_neg h0]
        rw [if_neg (by
          simp only [List.isEmpty_iff, List.append_eq_nil]
          rintro ⟨_, h⟩
          simp at h)]
        rw [listContent_append, listContent_singleton, hchunkcontent]
        rw [h1, hlcontent]
      · rw [wf_mk_iff]
        refine ⟨hn.count_nonneg, ?_, ?_, fun hz => absurd hz h0, ?_⟩
        · intro hemp
          exact absurd (List.append_eq_nil.mp hemp).2 (by simp)
        · intro _
          rw [sumCounts_append, sumCounts_cons, sumCounts_nil]
          simp only [Node.count_mk]
          omega
        · intro x hx
          rcases List.mem_append.mp hx with hx | hx
          · exact h3 x hx
          · rw [List.mem_singleton] at hx
            subst hx
            exact hchunkwf

/-! ### Hybrid -/

/-- Well-formedness of a hybrid: in raw mode the raw count is the raw
value's length; in tree mode the node is well-formed and the (meaningless)
raw value is the empty one left behind by the raw-to-tree conversion. -/
def Hybrid.hwf (h : Hybrid α) : Prop :=
  (h.node.count = 0 → h.count = (h.raw.length : Int)) ∧
  (h.node.count ≠ 0 → h.node.wf ∧ h.raw = [])

theorem New_content (v : List α) : (New v (v.length : Int)).content = v := by
  rw [New, content_mk]
  by_cases h : (v.length : Int) = 0
  · have : v = [] := by
      cases v with
      | nil => rfl
      | cons a t => simp at h; omega
    rw [if_pos h, this]
  · rw [if_neg h, if_pos (by simp)]

theorem New_wf (v : List α) : (New v (v.length : Int)).wf := by
  rw [New, wf_mk_iff]
  refine ⟨by simp, fun _ => rfl, by simp, ?_, by simp⟩
  intro h0
  refine ⟨rfl, ?_⟩
  cases v with
  | nil => rfl
  | cons a t => simp at h0; omega

/-- The node that `Hybrid.Splice` feeds to the tree engine: the replacement
itself in tree mode, or a fresh one-leaf node wrapping its raw value. -/
theorem coerce_spec {r : Hybrid α} (hr : r.hwf) :
    (if r.node.count = 0 then New r.raw r.count else r.node).content = r.content ∧
    (if r.node.count = 0 then New r.raw r.count else r.node).count = r.size ∧
    (if r.node.count = 0 then New r.raw r.count else r.node).wf := by
  by_cases h0 : r.node.count = 0
  · have hcount := hr.1 h0
    rw [if_pos h0, Hybrid.content, if_pos h0, Hybrid.size, if_pos h0, hcount]
    exact ⟨New_content r.raw, rfl, New_wf r.raw⟩
  · rw [if_neg h0, Hybrid.content, if_neg h0, Hybrid.size, if_neg h0]
    exact ⟨rfl, rfl, (hr.2 h0).1⟩

theorem listSlice_zero (l : List α) : listSlice l 0 0 = [] := by
  simp [listSlice]

/-- `simplify` on a well-formed tree-mode hybrid collapses exactly to the
tree's flattened content. -/
theorem simplify_spec {h : Hybrid α} (hw : h.node.wf) (h0 : h.node.count ≠ 0) :
    h.simplify = ⟨h.highMark, h.lowMark, h.node.content, h.node.count, Node.mk 0 [] [] 0⟩ := by
  rw [Hybrid.simplify, if_neg h0]
  have hfold : ∀ (lfs : List (Node α)), (∀ l ∈ lfs, l.wf ∧ l.children = [] ∧ l.count ≠ 0) →
      ∀ (acc : List α) (tot : Int), tot = (acc.length : Int) →
      lfs.foldl (fun (acc2 : List α × Int) lf =>
          (listSplice acc2.1 acc2.2 0 lf.leaf, acc2.2 + lf.count)) (acc, tot) =
        (acc ++ leafConcat lfs, tot + sumCounts lfs) := by
    intro lfs
    induction lfs with
    | nil =>
      intro _ acc tot _
      simp [leafConcat]
    | cons lf rest ih =>
      intro hp acc tot htot
      obtain ⟨hw1, hch1, hc1⟩ := hp lf (by simp)
      have hlen : lf.count = (lf.leaf.length : Int) := hw1.leaf_len hch1
      rw [List.foldl_cons]
      have hsplice : listSplice acc tot 0 lf.leaf = acc ++ lf.leaf := by
        rw [listSplice, htot]
        rw [List.take_of_length_le (by omega), List.drop_eq_nil_of_le (by omega),
          List.append_nil]
      rw [hsplice]
      rw [ih (fun x hx => hp x (by simp [hx])) (acc ++ lf.leaf) (tot + lf.count)
        (by simp; omega)]
      rw [show leafConcat (lf :: rest) = lf.leaf ++ leafConcat rest from rfl,
        sumCounts_cons]
      rw [Prod.mk.injEq]
      exact ⟨by simp, by ring⟩
  rw [listSlice_zero]
  rw [hfold h.node.leaves (fun l hl => leaves_prop h.node hw l hl) [] 0 (by simp)]
  rw [List.nil_append, zero_add]
  rw [leaves_sum h.node hw]
  rfl

theorem hybrid_mk_node (hm lm : Int) (raw : List α) (cnt : Int) (nd : Node α) :
    (Hybrid.mk hm lm raw cnt nd).node = nd := rfl

/-! ### Invalid ranges -/

theorem slice_none_of_invalid {n : Node α} {offset count : Int}
    (h : offset < 0 ∨ count < 0 ∨ offset + count > n.count) (g : Nat) :
    n.slice offset count g = none := by
  rw [Node.slice, if_pos h]

theorem slice_some_valid {n : Node α} {offset count : Int} {g : Nat} {res}
    (h : n.slice offset count g = some res) :
    0 ≤ offset ∧ 0 ≤ count ∧ offset + count ≤ n.count := by
  by_cases hg : offset < 0 ∨ count < 0 ∨ offset + count > n.count
  · rw [slice_none_of_invalid hg g] at h
    exact absurd h (by simp)
  · omega

/-- The fast-path-C scan stops immediately once the running prefix sum
passes `offset`. -/
theorem spliceScan_stop {offset count : Int} {r : Node α} {cs : List (Node α)}
    {seen : Int} {g : Nat} (h : ¬seen ≤ offset) :
    Node.spliceScan offset count r cs seen g = none := by
  cases cs with
  | nil => rw [Node.spliceScan]
  | cons ch rest => rw [Node.spliceScan, if_neg h]

/-- The fast-path-C scan finds nothing when the whole range sits past the
scanned children. -/
theorem spliceScan_overflow {offset count : Int} {r : Node α} :
    ∀ (cs : List (Node α)), (∀ ch ∈ cs, 0 ≤ ch.count) →
    ∀ (seen : Int) (g : Nat), seen + sumCounts cs < offset + count →
      Node.spliceScan offset count r cs seen g = none := by
  intro cs
  induction cs with
  | nil =>
    intro _ seen g _
    rw [Node.spliceScan]
  | cons ch rest ih =>
    intro hp seen g hlt
    have hrest : 0 ≤ sumCounts rest := sumCounts_nonneg (fun c hc => hp c (by simp [hc]))
    rw [sumCounts_cons] at hlt
    rw [Node.spliceScan]
    by_cases hs : seen ≤ offset
    · rw [if_pos hs, if_neg (by omega)]
      rw [ih (fun c hc => hp c (by simp [hc])) (seen + ch.count) g (by omega)]
    · rw [if_neg hs]

theorem spliceSlow_none_first {n : Node α} {offset count : Int} (r : Node α) (g : Nat)
    (h : n.slice (offset + count) (n.count - offset - count) g = none) :
    n.spliceSlow offset count r g = none := by
  simp only [Node.spliceSlow, h]

theorem spliceSlow_none_neg {n : Node α} {offset : Int} (hoff : offset < 0)
    (count : Int) (r : Node α) (g : Nat) : n.spliceSlow offset count r g = none := by
  rcases hfst : n.slice (offset + count) (n.count - offset - count) g with _ | p
  · simp only [Node.spliceSlow, hfst]
  · obtain ⟨right, g1⟩ := p
    have h2 : n.slice 0 offset g1 = none :=
      slice_none_of_invalid (Or.inr (Or.inl hoff)) g1
    simp only [Node.spliceSlow, hfst, h2]

/-- `spliceChildren` rejects a negative offset: no child classifies left,
so the first boundary slice is asked for a negative count. -/
theorem spliceChildren_none_neg {n : Node α} (hwf : n.wf) {offset : Int} (hoff : offset < 0)
    (count : Int) (r : Node α) (g : Nat) :
    n.spliceChildren offset count r g = none := by
  obtain ⟨csL, csM, csR, hdec, hcls, hLf, hMf, hRf⟩ :=
    classify_split offset count n.children 0 (fun x hx => (hwf.child hx).count_nonneg)
  simp only [zero_add] at hLf
  have hLnil : csL = [] := by
    rcases hLc : csL with _ | ⟨l0, t⟩
    · rfl
    · have h1 := hLf [] l0 t (by simp [hLc])
      simp only [sumCounts_nil, zero_add] at h1
      have h2 : 0 ≤ l0.count := (hwf.child (by rw [hdec, hLc]; simp)).count_nonneg
      omega
  rw [hLnil] at hdec hcls
  simp only [List.nil_append, sumCounts_nil, List.length_nil] at hdec hcls
  cases hch : n.children with
  | nil =>
    have hget : n.children[(0 : Nat)]? = none := by rw [hch]; rfl
    simp only [Node.spliceChildren, hcls, hget]
  | cons c0 rest =>
    have hget : n.children[(0 : Nat)]? = some c0 := by rw [hch]; simp
    have hsl : c0.slice 0 (offset - 0) g = none :=
      slice_none_of_invalid (Or.inr (Or.inl (by omega))) g
    simp only [Node.spliceChildren, hcls, hget, hsl]

/-- `spliceChildren` rejects a range running past the node: no child
classifies right, so either the left-boundary index is out of range or the
right-boundary slice is asked for a negative count. -/
theorem spliceChildren_none_over {n : Node α} (hwf : n.wf) {offset count : Int}
    (ho : 0 ≤ offset) (hover : n.count < offset + count) (hch : n.children ≠ [])
    (r : Node α) (g : Nat) :
    n.spliceChildren offset count r g = none := by
  obtain ⟨csL, csM, csR, hdec, hcls, hLf, hMf, hRf⟩ :=
    classify_split offset count n.children 0 (fun x hx => (hwf.child hx).count_nonneg)
  simp only [zero_add] at hLf hMf hRf
  have hwfall : ∀ x ∈ n.children, x.wf := fun x hx => hwf.child hx
  have hLwf : ∀ x ∈ csL, x.wf := fun x hx => hwfall x (by rw [hdec]; simp [hx])
  have hMwf : ∀ x ∈ csM, x.wf := fun x hx => hwfall x (by rw [hdec]; simp [hx])
  have hRwf : ∀ x ∈ csR, x.wf := fun x hx => hwfall x (by rw [hdec]; simp [hx])
  have hL0 : 0 ≤ sumCounts csL := sumCounts_nonneg (fun x hx => (hLwf x hx).count_nonneg)
  have hM0 : 0 ≤ sumCounts csM := sumCounts_nonneg (fun x hx => (hMwf x hx).count_nonneg)
  have hR0 : 0 ≤ sumCounts csR := sumCounts_nonneg (fun x hx => (hRwf x hx).count_nonneg)
  have hsum : n.count = sumCounts csL + sumCounts csM + sumCounts csR := by
    have hx := hwf.sum_children hch
    rw [hdec, sumCounts_append, sumCounts_append] at hx
    omega
  have hRnil : csR = [] := by
    rcases hRc : csR with _ | ⟨r0, csR'⟩
    · rfl
    · have h1 := (hRf [] r0 csR' (by simp [hRc])).1
      simp only [sumCounts_nil, add_zero] at h1
      omega
  rw [hRnil] at hdec hcls
  simp only [List.append_nil, sumCounts_nil, List.length_nil] at hdec hcls
  rcases hMc : csM with _ | ⟨mh, csM1⟩
  · rw [hMc] at hdec hcls
    simp only [List.append_nil, List.length_nil, sumCounts_nil] at hdec hcls
    have hget : n.children[csL.length]? = none := by
      rw [hdec]
      exact List.getElem?_eq_none (le_refl _)
    simp only [Node.spliceChildren, hcls, hget]
  · have hMne : csM ≠ [] := by rw [hMc]; simp
    obtain ⟨csM2, rlast, hMc2⟩ : ∃ csM2 rlast, csM = csM2 ++ [rlast] := by
      rcases List.eq_nil_or_concat csM with hh | ⟨a, b, hh⟩
      · exact absurd hh hMne
      · exact ⟨a, b, by rw [hh, List.concat_eq_append]⟩
    have hmhwf : mh.wf := hMwf mh (by rw [hMc]; simp)
    have hmh := hMf [] mh csM1 (by simp [hMc])
    simp only [sumCounts_nil, add_zero] at hmh
    have hLC : sumCounts csL ≤ offset := by
      rcases List.eq_nil_or_concat csL with hnil | ⟨pre, lastc, hconc⟩
      · rw [hnil]
        simpa using ho
      · rw [List.concat_eq_append] at hconc
        have := hLf pre lastc [] (by simp [hconc])
        rw [hconc, sumCounts_append, sumCounts_cons, sumCounts_nil]
        omega
    obtain ⟨iL, g1, heL, -, -, -⟩ :=
      slice_ok mh hmhwf 0 (offset - sumCounts csL) (le_refl 0) (by omega) (by omega) g
    have hgetL : n.children[csL.length]? = some mh := by
      rw [hdec, List.getElem?_append_right (le_refl csL.length)]
      simp [hMc]
    have hgetR : n.children[csL.length + csM.length - 1]? = some rlast := by
      rw [hdec,
        List.getElem?_append_right (show csL.length ≤ csL.length + csM.length - 1 by
          rw [hMc]; simp)]
      have h1 : csL.length + csM.length - 1 - csL.length = csM.length - 1 := by omega
      rw [h1]
      have h2 : csM.length - 1 = csM2.length := by rw [hMc2]; simp
      rw [h2, hMc2]
      exact List.getElem?_concat_length csM2 rlast
    have hLM0 : ¬(csL.length + csM.length = 0) := by rw [hMc]; simp
    have hrl0 : 0 ≤ rlast.count := (hMwf rlast (by rw [hMc2]; simp)).count_nonneg
    have hslR : rlast.slice (offset + count - (n.count - 0 - rlast.count))
        (rlast.count - (offset + count - (n.count - 0 - rlast.count))) g1 = none :=
      slice_none_of_invalid (Or.inr (Or.inl (by omega))) g1
    simp only [Node.spliceChildren, hcls, hgetL, heL, if_neg hLM0, hgetR, hslR]

/-- Any `Splice` with a negative offset aborts: every path hands some inner
`Slice` a negative offset or count. -/
theorem splice_none_of_neg_offset {n : Node α} (hn : n.wf) {offset : Int}
    (hoff : offset < 0) (count : Int) (r : Node α) (g : Nat) :
    n.splice offset count r g = none := by
  have hn0 := hn.count_nonneg
  rw [Node.splice]
  rw [if_neg (by rintro ⟨h1, -⟩; omega)]
  rw [if_neg (by rintro ⟨h1, -⟩; omega)]
  have hscan : Node.spliceScan offset count r n.children 0 g = none :=
    spliceScan_stop (by omega)
  simp only [hscan]
  by_cases hemp : n.children.isEmpty
  · rw [dif_pos hemp]
    exact spliceSlow_none_neg hoff count r g
  · rw [dif_neg hemp]
    split_ifs with hcond
    · exact spliceChildren_none_neg hn hoff count r g
    · exact spliceSlow_none_neg hoff count r g

/-- Any `Splice` whose range runs past the receiver aborts. -/
theorem splice_none_of_overflow {n : Node α} (hn : n.wf) {offset count : Int}
    (ho : 0 ≤ offset) (hover : n.count < offset + count) (r : Node α) (g : Nat) :
    n.splice offset count r g = none := by
  have hn0 := hn.count_nonneg
  rw [Node.splice]
  rw [if_neg (by rintro ⟨h1, h2⟩; omega)]
  rw [if_neg (by rintro ⟨h1, h2⟩; omega)]
  have hsum : sumCounts n.children ≤ n.count := by
    by_cases hch : n.children = []
    · rw [hch, sumCounts_nil]
      exact hn0
    · exact le_of_eq (hn.sum_children hch).symm
  have hscan : Node.spliceScan offset count r n.children 0 g = none :=
    spliceScan_overflow n.children (fun c hc => (hn.child hc).count_nonneg) 0 g (by omega)
  simp only [hscan]
  by_cases hemp : n.children.isEmpty
  · rw [dif_pos hemp]
    exact spliceSlow_none_first r g (slice_none_of_invalid (Or.inr (Or.inl (by omega))) g)
  · rw [dif_neg hemp]
    split_ifs with hcond
    · exact spliceChildren_none_over hn ho hover (by simpa using hemp) r g
    · exact spliceSlow_none_first r g (slice_none_of_invalid (Or.inr (Or.inl (by omega))) g)

/-- On a leaf node, `Splice(k, -1, r)` with `1 ≤ k ≤ n.count` goes down the
slow path and returns normally: both inner slices receive valid ranges. -/
theorem splice_leaf_neg_one {n : Node α} (hn : n.wf) (hch : n.children = [])
    {k : Int} (hk1 : 1 ≤ k) (hk2 : k ≤ n.count) (r : Node α) (g : Nat) :
    (n.splice k (-1) r g).isSome = true := by
  have hn0 := hn.count_nonneg
  rw [Node.splice]
  rw [if_neg (by rintro ⟨h1, -⟩; omega)]
  rw [if_neg (by rintro ⟨-, h2⟩; omega)]
  have hscan : Node.spliceScan k (-1) r n.children 0 g = none := by
    rw [hch, Node.spliceScan]
  simp only [hscan]
  rw [dif_pos (by simp [hch])]
  obtain ⟨rt, g1, hrt, -, -, -⟩ :=
    slice_ok n hn (k + -1) (n.count - k - -1) (by omega) (by omega) (by omega) g
  obtain ⟨lf, g2, hlf, -, -, -⟩ :=
    slice_ok n hn 0 k (le_refl 0) (by omega) (by omega) g1
  rcases hj : lf.join r g2 with ⟨j1, g3⟩
  simp only [Node.spliceSlow, hrt, hlf, hj, Option.isSome_some]

/-! ### Mirrored editing sessions (flat reference vs tree) -/

/-- One mirrored editing step `(offset, count, replacement value)` run on
the tree side: `n = n.Splice(o, c, New(r, len(r)))`. -/
def runSteps : Node α → Nat → List (Int × Int × List α) → Option (Node α × Nat)
  | n, g, [] => some (n, g)
  | n, g, st :: rest =>
    match n.splice st.1 st.2.1 (New st.2.2 (st.2.2.length : Int)) g with
    | none => none
    | some (n2, g2) => runSteps n2 g2 rest

/-- The flat reference side of the session: `s = s[:o] + r + s[o+c:]` at
each step. -/
def foldSteps : List α → List (Int × Int × List α) → List α
  | s, [] => s
  | s, st :: rest => foldSteps (listSplice s st.1 st.2.1 st.2.2) rest

/-- Each step's range is valid against the current flat sequence. -/
def stepsValid : List α → List (Int × Int × List α) → Prop
  | _, [] => True
  | s, st :: rest =>
    0 ≤ st.1 ∧ 0 ≤ st.2.1 ∧ st.1 + st.2.1 ≤ (s.length : Int) ∧
      stepsValid (listSplice s st.1 st.2.1 st.2.2) rest

theorem runSteps_spec : ∀ (steps : List (Int × Int × List α)) (n : Node α) (s : List α)
    (g : Nat), n.wf → n.content = s → stepsValid s steps →
    ∃ m g2, runSteps n g steps = some (m, g2) ∧ m.content = foldSteps s steps ∧ m.wf := by
  intro steps
  induction steps with
  | nil =>
    intro n s g hwf hcont _
    exact ⟨n, g, rfl, by rw [foldSteps]; exact hcont, hwf⟩
  | cons st rest ih =>
    intro n s g hwf hcont hv
    obtain ⟨h1, h2, h3, h4⟩ := hv
    have hlen : (s.length : Int) = n.count := by
      rw [← hcont]
      exact content_length n hwf
    obtain ⟨m1, g1, he1, hc1, hn1, hw1⟩ :=
      splice_ok n hwf st.1 st.2.1 (New st.2.2 (st.2.2.length : Int))
        (New_wf st.2.2) h1 h2 (by omega) g
    have hc1b : m1.content = listSplice s st.1 st.2.1 st.2.2 := by
      rw [hc1, hcont, New_content, listSplice]
    obtain ⟨m2, g2, he2, hc2, hw2⟩ := ih m1 _ g1 hw1 hc1b h4
    refine ⟨m2, g2, ?_, ?_, hw2⟩
    · simp only [runSteps, he1]
      exact he2
    · rw [foldSteps]
      exact hc2

theorem stepsValid_append : ∀ (pre post : List (Int × Int × List α)) (s : List α),
    stepsValid s (pre ++ post) → stepsValid s pre := by
  intro pre
  induction pre with
  | nil =>
    intro post s _
    exact trivial
  | cons st rest ih =>
    intro post s hv
    obtain ⟨h1, h2, h3, h4⟩ := hv
    exact ⟨h1, h2, h3, ih post _ h4⟩

/-! ### Reachability -/

/-- The nodes reachable from `New(value, len(value))` under the package's
operations: valid `Slice` and `Splice` calls (ranges inside the receiver,
reachable replacements), `join`, and `Flatten`, at any generator state. -/
inductive Reachable : Node α → Prop where
  | base (v : List α) : Reachable (New v (v.length : Int))
  | slice (n m : Node α) (offset count : Int) (g g2 : Nat) (hn : Reachable n)
      (heq : n.slice offset count g = some (m, g2)) : Reachable m
  | splice (n r m : Node α) (offset count : Int) (g g2 : Nat) (hn : Reachable n)
      (hr : Reachable r) (ho : 0 ≤ offset) (hc : 0 ≤ count)
      (hval : offset + count ≤ n.count)
      (heq : n.splice offset count r g = some (m, g2)) : Reachable m
  | join (n o : Node α) (g : Nat) (hn : Reachable n) (ho : Reachable o) :
      Reachable (n.join o g).1
  | flatten (n : Node α) (chunkSize : Int) (g : Nat) (hn : Reachable n) :
      Reachable (n.flatten chunkSize g).1

/-! ### Claims -/

/-- C1: for every flat reference sequence `s`, the node built by
`New(s, len(s))`, and every valid sequence of mirrored splice steps
(`n = n.Splice(o, c, New(r, len(r)))` on the tree side, `s = s[:o] + r +
s[o+c:]` on the flat side), the flattened content of the node equals the
flat sequence after every step, i.e. after every prefix of the step list. -/
theorem claim_C1 (s : List α) (steps : List (Int × Int × List α))
    (hv : stepsValid s steps) (g : Nat) :
    ∀ pre post, steps = pre ++ post →
      ∃ m g2, runSteps (New s (s.length : Int)) g pre = some (m, g2) ∧
        m.content = foldSteps s pre := by
  intro pre post hsplit
  have hvp : stepsValid s pre := stepsValid_append pre post s (by rw [← hsplit]; exact hv)
  obtain ⟨m, g2, h1, h2, -⟩ :=
    runSteps_spec pre (New s (s.length : Int)) s g (New_wf s) (New_content s) hvp
  exact ⟨m, g2, h1, h2⟩

/-- C1 witness: a concrete two-step mirrored session. -/
theorem claim_C1_witness :
    stepsValid ([1, 2, 3] : List Nat) [(1, 1, [9, 9]), (0, 2, [7])] ∧
    (∃ m g2, runSteps (New ([1, 2, 3] : List Nat) 3) 0 [(1, 1, [9, 9]), (0, 2, [7])] =
        some (m, g2) ∧
      m.content = foldSteps [1, 2, 3] [(1, 1, [9, 9]), (0, 2, [7])]) := by
  have hv : stepsValid ([1, 2, 3] : List Nat) [(1, 1, [9, 9]), (0, 2, [7])] := by
    refine ⟨by decide, by decide, by decide, by decide, by decide, ?_, trivial⟩
    decide
  exact ⟨hv, claim_C1 [1, 2, 3] [(1, 1, [9, 9]), (0, 2, [7])] hv 0
    [(1, 1, [9, 9]), (0, 2, [7])] [] (by simp)⟩

/-- C2: on a well-formed node, a valid `Slice(offset, count)` returns
normally and its flattened content is exactly the `count`-length subrange
of the receiver's flattened content starting at `offset`. -/
theorem claim_C2 {n : Node α} (hwf : n.wf) {offset count : Int}
    (ho : 0 ≤ offset) (hc : 0 ≤ count) (hval : offset + count ≤ n.count) (g : Nat) :
    ∃ m g2, n.slice offset count g = some (m, g2) ∧
      m.content = (n.content.drop offset.toNat).take count.toNat := by
  obtain ⟨m, g2, h1, h2, -, -⟩ := slice_ok n hwf offset count ho hc hval g
  exact ⟨m, g2, h1, h2⟩

/-- C2 witness: slicing the middle of a three-element leaf. -/
theorem claim_C2_witness :
    ∃ m g2, (New ([3, 4, 5] : List Nat) 3).slice 1 2 0 = some (m, g2) ∧
      m.content = (((New ([3, 4, 5] : List Nat) 3).content.drop (1 : Int).toNat).take
        (2 : Int).toNat) :=
  claim_C2 (New_wf [3, 4, 5]) (by decide) (by decide) (by decide) 0

/-- C3 (corrected): on a well-formed node, `Slice(-1, k)`, `Slice(k, -1)`
and `Slice(o, c)` with `o + c > n.Count` all abort, and so do
`Splice(-1, k, r)` and `Splice(o, c, r)` with `o + c > n.Count`; but
`Splice(k, -1, r)` does NOT abort in general: on a leaf node it returns
normally whenever `1 ≤ k ≤ n.Count`. -/
theorem claim_C3_amended {n : Node α} (hn : n.wf) (r : Node α) (g : Nat) :
    (∀ k : Int, n.slice (-1) k g = none) ∧
    (∀ k : Int, n.slice k (-1) g = none) ∧
    (∀ o c : Int, n.count < o + c → n.slice o c g = none) ∧
    (∀ k : Int, n.splice (-1) k r g = none) ∧
    (∀ o c : Int, n.count < o + c → n.splice o c r g = none) ∧
    (n.children = [] → ∀ k : Int, 1 ≤ k → k ≤ n.count →
      (n.splice k (-1) r g).isSome = true) := by
  refine ⟨?_, ?_, ?_, ?_, ?_, ?_⟩
  · intro k
    exact slice_none_of_invalid (Or.inl (by omega)) g
  · intro k
    exact slice_none_of_invalid (Or.inr (Or.inl (by omega))) g
  · intro o c hoc
    exact slice_none_of_invalid (Or.inr (Or.inr hoc)) g
  · intro k
    exact splice_none_of_neg_offset hn (by omega) k r g
  · intro o c hoc
    by_cases ho : 0 ≤ o
    · exact splice_none_of_overflow hn ho hoc r g
    · exact splice_none_of_neg_offset hn (by omega) c r g
  · intro hch k hk1 hk2
    exact splice_leaf_neg_one hn hch hk1 hk2 r g

/-- C3 witness: the aborting shapes on a concrete two-element leaf. -/
theorem claim_C3_witness :
    (New ([1, 2] : List Nat) 2).slice (-1) 1 0 = none ∧
    (New ([1, 2] : List Nat) 2).slice 1 (-1) 0 = none ∧
    (New ([1, 2] : List Nat) 2).splice (-1) 1 (New [9] 1) 0 = none ∧
    ((New ([1, 2] : List Nat) 2).splice 1 (-1) (New [9] 1) 0).isSome = true := by
  have h := claim_C3_amended (New_wf [1, 2]) (New [9] 1) 0
  exact ⟨h.1 1, h.2.1 1, h.2.2.2.1 1, h.2.2.2.2.2 rfl 1 (by decide) (by decide)⟩

/-- C3 counterexample: `Splice(1, -1, r)` on a five-element leaf returns
normally, refuting the original claim that `Splice(k, -1, r)` always
fails. -/
theorem claim_C3_counterexample :
    ((New ([10, 20, 30, 40, 50] : List Nat) 5).splice 1 (-1) (New [7] 1) 0).isSome = true := by
  simp [Node.splice, Node.spliceScan, Node.spliceSlow, Node.spliceChildren, Node.slice,
    Node.sliceLoop, Node.join, listSlice, New, limit, classifyAux]

/-- C5: every node reachable from `New(value, len(value))` by valid
`Slice`, `Splice`, `join` and `Flatten` operations is well-formed: at
every node of its tree, an internal node's count is the sum of its
children's counts, and a leaf node's count is the length of its leaf
value. -/
theorem claim_C5 {n : Node α} (h : Reachable n) : n.wf := by
  induction h with
  | base v => exact New_wf v
  | slice n0 m offset count g g2 hn heq ih =>
    obtain ⟨h1, h2, h3⟩ := slice_some_valid heq
    obtain ⟨m', g2', he', -, -, hw'⟩ := slice_ok n0 ih offset count h1 h2 h3 g
    have hm := Option.some.inj (heq.symm.trans he')
    injection hm with hm1 hm2
    rw [hm1]
    exact hw'
  | splice n0 r m offset count g g2 hn hr ho hc hval heq ihn ihr =>
    obtain ⟨m', g2', he', -, -, hw'⟩ := splice_ok n0 ihn offset count r ihr ho hc hval g
    have hm := Option.some.inj (heq.symm.trans he')
    injection hm with hm1 hm2
    rw [hm1]
    exact hw'
  | join n0 o g hn ho ihn iho => exact join_wf ihn iho g
  | flatten n0 chunkSize g hn ihn => exact (flatten_spec ihn chunkSize g).2.2

/-- C5 witness: the invariant at a freshly built two-element leaf. -/
theorem claim_C5_witness : (New ([1, 2] : List Nat) 2).wf :=
  claim_C5 (Reachable.base [1, 2])

/-- C6 (corrected): fast path A (`offset = 0`, `count = n.Count`) returns a
node carrying the replacement's children, leaf and count, but under a FRESH
id allocated from the receiver's generator — not the receiver's own id. -/
theorem claim_C6_amended (n r : Node α) (g : Nat) :
    n.splice 0 n.count r g =
      some (Node.mk (g + 1) r.children r.leaf r.count, g + 1) := by
  rw [Node.splice, if_pos ⟨rfl, rfl⟩]

/-- C6 counterexample: a whole-receiver replace on a concrete leaf yields a
node whose id is 1, while the receiver's id is 0, refuting the original
claim that the result's id equals the receiver's. -/
theorem claim_C6_counterexample :
    ((New ([1] : List Nat) 1).splice 0 1 (New [2] 1) 0).map (fun p => p.1.id) = some 1 ∧
      (New ([1] : List Nat) 1).id = 0 := by
  constructor
  · simp [Node.splice, New]
  · rfl

/-- C7 (corrected): if either operand of `join` is empty (`Count = 0`),
the result carries the other operand's children, leaf and total count —
but under a FRESH id from the threaded generator, not the other operand's
own id. -/
theorem claim_C7_amended (n o : Node α) (g : Nat) :
    (n.count = 0 → n.join o g =
      (Node.mk (g + 1) o.children o.leaf (n.count + o.count), g + 1)) ∧
    (o.count = 0 → n.count ≠ 0 → n.join o g =
      (Node.mk (g + 1) n.children n.leaf (n.count + o.count), g + 1)) := by
  constructor
  · intro h0
    simp only [Node.join, if_pos h0]
  · intro h0 hn0
    simp only [Node.join, if_neg hn0, if_pos h0]

/-- C7 witness: joining an empty node onto a one-element leaf. -/
theorem claim_C7_witness :
    (New ([] : List Nat) 0).join (New [5] 1) 0 =
      (Node.mk 1 (New ([5] : List Nat) 1).children (New ([5] : List Nat) 1).leaf
        ((New ([] : List Nat) 0).count + (New ([5] : List Nat) 1).count), 1) :=
  (claim_C7_amended (New [] 0) (New [5] 1) 0).1 rfl

/-- C7 counterexample: joining an empty left operand onto a one-element
leaf yields id 1, while the non-empty operand's id is 0, refuting the
original claim that the result has the same id as the non-empty operand. -/
theorem claim_C7_counterexample :
    ¬((((New ([] : List Nat) 0).join (New [5] 1) 0).1).id = (New ([5] : List Nat) 1).id) := by
  decide

/-- C10: on a well-formed receiver and replacement, a valid
`Splice(offset, count, replacement)` always returns normally: no inner
`Slice` panics and no child indexing goes out of bounds (both are modeled
as `none`). -/
theorem claim_C10 {n : Node α} (hn : n.wf) {r : Node α} (hr : r.wf)
    {offset count : Int} (ho : 0 ≤ offset) (hc : 0 ≤ count)
    (hval : offset + count ≤ n.count) (g : Nat) :
    (n.splice offset count r g).isSome = true := by
  obtain ⟨m, g2, h1, -, -, -⟩ := splice_ok n hn offset count r hr ho hc hval g
  rw [h1]
  rfl

/-- C10 witness: a concrete mid-leaf splice. -/
theorem claim_C10_witness :
    ((New ([1, 2, 3] : List Nat) 3).splice 1 1 (New [7, 8] 2) 0).isSome = true :=
  claim_C10 (New_wf [1, 2, 3]) (New_wf [7, 8]) (by decide) (by decide) (by decide) 0

/-- `k + 1` single-leaf nodes joined left to right:
`n := New([x], 1)` and then `k` times `n = n.join(New([x], 1))`. -/
def joinLeaves : Nat → Node Nat × Nat
  | 0 => (New [0] 1, 0)
  | k + 1 => ((joinLeaves k).1).join (New [0] 1) (joinLeaves k).2

/-- C8 (corrected): `join`'s branching ceiling only fires when the RIGHT
operand is internal: a leaf right operand is always appended flat
(children grow by one with no ceiling check), while an internal right
operand joined onto a left operand with more than `limit` children nests
the left operand as a single child. -/
theorem claim_C8_amended (n o : Node α) (g : Nat) (hn0 : n.count ≠ 0) (ho0 : o.count ≠ 0) :
    (n.children.isEmpty = false → o.children.isEmpty = true →
      ((n.join o g).1).children = n.children ++ [o]) ∧
    (n.children.isEmpty = false → o.children.isEmpty = false →
      (n.children.length : Int) > limit →
      ((n.join o g).1).children = n :: o.children) := by
  constructor
  · intro hnch hoch
    have h3 : ¬(n.children.isEmpty ∧ o.children.isEmpty) := by
      rintro ⟨hx, -⟩
      rw [hnch] at hx
      exact Bool.false_ne_true hx
    have h4 : ¬(n.children.isEmpty ∨ (¬o.children.isEmpty ∧ (n.children.length : Int) > limit)) := by
      rintro (hx | ⟨hx, -⟩)
      · rw [hnch] at hx
        exact Bool.false_ne_true hx
      · exact hx hoch
    simp only [Node.join, if_neg hn0, if_neg ho0, if_neg h3, if_neg h4, if_pos hoch,
      Node.children_mk]
  · intro hnch hoch hlim
    have h3 : ¬(n.children.isEmpty ∧ o.children.isEmpty) := by
      rintro ⟨hx, -⟩
      rw [hnch] at hx
      exact Bool.false_ne_true hx
    have h4 : n.children.isEmpty ∨ (¬o.children.isEmpty ∧ (n.children.length : Int) > limit) :=
      Or.inr ⟨by rw [hoch]; exact Bool.false_ne_true, hlim⟩
    simp only [Node.join, if_neg hn0, if_neg ho0, if_neg h3, if_pos h4, Node.children_mk]

set_option maxRecDepth 40000 in
/-- C8 witness: a 102-children left operand joined with an internal right
operand nests the left operand as a single new child. -/
theorem claim_C8_witness :
    (((joinLeaves 101).1).join (((New ([1] : List Nat) 1).join (New [2] 1) 0).1) 0).1.children =
      (joinLeaves 101).1 :: (((New ([1] : List Nat) 1).join (New [2] 1) 0).1).children :=
  (claim_C8_amended (joinLeaves 101).1 (((New ([1] : List Nat) 1).join (New [2] 1) 0).1) 0
    (by decide) (by decide)).2 (by decide) (by decide) (by decide)

set_option maxRecDepth 40000 in
/-- C8 counterexample: 101 single-leaf joins onto a growing left operand
produce a root with 102 children, all of them leaves: the children list
exceeds the branching ceiling of 100 with no new nesting level, refuting
the original claim. -/
theorem claim_C8_counterexample :
    ((joinLeaves 101).1).children.length = 102 ∧
      ((joinLeaves 101).1).children.all (fun c => c.children.isEmpty) = true := by
  decide

/-- C9 (corrected): a valid `Hybrid.Slice` on a tree-mode hybrid stays in
tree mode only when the requested `count` is positive (the sliced node's
count is `count`, so slicing to zero length leaves tree mode); a raw-mode
slice stays raw, re-slicing the raw value and updating the raw count to
`count`. -/
theorem claim_C9_amended {h : Hybrid α} {offset count : Int} (g : Nat) :
    (0 < h.node.count → h.node.wf → 0 ≤ offset → 0 < count →
      offset + count ≤ h.node.count →
      ∃ h2 g2, h.slice offset count g = some (h2, g2) ∧ 0 < h2.node.count ∧
        h2.node.count = count) ∧
    (h.node.count = 0 → 0 ≤ offset → 0 ≤ count → offset + count ≤ h.count →
      h.slice offset count g =
        some (⟨h.highMark, h.lowMark, listSlice h.raw offset count, count, h.node⟩, g)) := by
  constructor
  · intro ht hwf ho hc hval
    obtain ⟨m, g2, he, -, hcnt, -⟩ := slice_ok h.node hwf offset count ho (by omega) hval g
    rw [Hybrid.slice, if_pos ht]
    refine ⟨⟨h.highMark, h.lowMark, h.raw, h.count, m⟩, g2, ?_, ?_, ?_⟩
    · simp only [he]
    · simp only [hybrid_mk_node]
      omega
    · simp only [hybrid_mk_node]
      exact hcnt
  · intro hraw _ _ _
    rw [Hybrid.slice, if_neg (by omega)]

/-- C9 witness: a valid positive-length slice of a tree-mode hybrid. -/
theorem claim_C9_witness :
    ∃ h2 g2, (Hybrid.mk 100 10 ([] : List Nat) 0 (New [1, 2] 2)).slice 0 1 0 =
        some (h2, g2) ∧
      0 < h2.node.count ∧ h2.node.count = 1 :=
  (claim_C9_amended 0).1 (by decide) (New_wf [1, 2]) (by decide) (by decide) (by decide)

/-- C9 counterexample: slicing a tree-mode hybrid with `count = 0` yields a
hybrid whose node count is 0 — i.e. no longer in tree mode — refuting the
original claim that a tree-mode slice always stays in tree mode. -/
theorem claim_C9_counterexample :
    ((Hybrid.mk 100 10 ([] : List Nat) 0 (New [1, 2] 2)).slice 0 0 0).map
      (fun p => p.1.node.count) = some 0 := by
  simp [Hybrid.slice, Node.slice, New, listSlice]

theorem simplify_count {r : Hybrid α} (hr : r.hwf) : r.simplify.count = r.size := by
  by_cases h0 : r.node.count = 0
  · rw [Hybrid.simplify, if_pos h0, Hybrid.size, if_pos h0]
  · rw [simplify_spec ((hr.2 h0).1) h0, Hybrid.size, if_neg h0]

/-- C4 (corrected): the raw-to-tree transition on crossing the high mark
additionally needs `0 ≤ highMark` (a negative high mark lets a raw splice
land back in raw mode even though the post-edit size exceeds it); the
tree-to-raw transition on falling below the low mark holds as claimed. -/
theorem claim_C4_amended {h replacement : Hybrid α} {offset count : Int} (g : Nat)
    (hm : h.lowMark < h.highMark) (hH : 0 ≤ h.highMark)
    (hwf : h.hwf) (hr : replacement.hwf) (ho : 0 ≤ offset) (hc : 0 ≤ count) :
    (h.node.count = 0 → offset + count ≤ h.count →
      h.highMark < h.count + (replacement.size - count) →
      ∃ h2 g2, h.splice offset count replacement g = some (h2, g2) ∧
        0 < h2.node.count ∧ h2.size = h.count + (replacement.size - count)) ∧
    (0 < h.node.count → offset + count ≤ h.node.count →
      h.node.count + (replacement.size - count) < h.lowMark →
      ∃ h2 g2, h.splice offset count replacement g = some (h2, g2) ∧
        h2.node.count = 0 ∧
        h2.content = h.node.content.take offset.toNat ++ replacement.content ++
          h.node.content.drop (offset + count).toNat) := by
  obtain ⟨hcc, hcs, hcw⟩ := coerce_spec hr
  constructor
  · intro hraw hval hpost
    have hcnt : h.count = (h.raw.length : Int) := hwf.1 hraw
    have hcnt0 : 0 ≤ h.count := by
      rw [hcnt]
      exact Int.natCast_nonneg _
    have hsz : h.size = h.count := by rw [Hybrid.size, if_pos hraw]
    have hcond : h.node.count = 0 ∧ h.size + replacement.size - count > h.highMark :=
      ⟨hraw, by rw [hsz]; omega⟩
    have hNwf : (New h.raw h.count).wf := by
      rw [New, wf_mk_iff]
      refine ⟨hcnt0, fun _ => hcnt, by simp, ?_, by simp⟩
      intro h0
      refine ⟨rfl, ?_⟩
      rw [hcnt] at h0
      cases hrw : h.raw with
      | nil => rfl
      | cons a t =>
        rw [hrw] at h0
        simp at h0
        omega
    by_cases hpos : 0 < h.count
    · obtain ⟨m, g2, he, hmc, hmn, hmw⟩ :=
        splice_ok (New h.raw h.count) hNwf offset count _ hcw ho hc
          (show offset + count ≤ (New h.raw h.count).count from hval) 0
      have hmcnt : m.count = h.count + (replacement.size - count) := by
        rw [hmn, hcs]
        simp only [New, Node.count_mk]
      rw [Hybrid.splice]
      simp only [if_pos hcond]
      rw [if_pos (show (New h.raw h.count).count > 0 from hpos)]
      simp only [he]
      rw [if_neg (show ¬m.count < h.lowMark by omega)]
      refine ⟨_, g2, rfl, ?_, ?_⟩
      · show 0 < m.count
        omega
      · rw [Hybrid.size]
        simp only [hybrid_mk_node]
        rw [if_neg (by omega)]
        omega
    · have h0 : h.count = 0 := by omega
      have hrc : replacement.simplify.count = replacement.size := simplify_count hr
      rw [Hybrid.splice]
      simp only [if_pos hcond]
      rw [if_neg (show ¬(New h.raw h.count).count > 0 by
        simp only [New, Node.count_mk]
        omega)]
      rw [if_pos (show (0 : Int) + (replacement.simplify.count - count) > h.highMark by
        rw [hrc]
        omega)]
      refine ⟨_, 0, rfl, ?_, ?_⟩
      · simp only [hybrid_mk_node, New, Node.count_mk]
        rw [hrc]
        omega
      · rw [Hybrid.size]
        simp only [hybrid_mk_node, New, Node.count_mk]
        rw [hrc]
        rw [if_neg (by omega)]
        omega
  · intro htree hval hpost
    obtain ⟨hnw, hrawe⟩ := hwf.2 (by omega)
    have hcond : ¬(h.node.count = 0 ∧ h.size + replacement.size - count > h.highMark) := by
      rintro ⟨h1, -⟩
      omega
    obtain ⟨m, g2, he, hmc, hmn, hmw⟩ := splice_ok h.node hnw offset count _ hcw ho hc hval g
    have hmcnt : m.count = h.node.count + (replacement.size - count) := by
      rw [hmn, hcs]
    rw [hcc] at hmc
    have hmlen : (m.content.length : Int) = m.count := content_length m hmw
    rw [Hybrid.splice]
    simp only [if_neg hcond]
    rw [if_pos htree]
    simp only [he]
    rw [if_pos (show m.count < h.lowMark by omega)]
    by_cases hm0 : m.count = 0
    · have hsim : (Hybrid.mk h.highMark h.lowMark h.raw h.count m).simplify =
          Hybrid.mk h.highMark h.lowMark h.raw h.count m := by
        rw [Hybrid.simplify,
          if_pos (show (Hybrid.mk h.highMark h.lowMark h.raw h.count m).node.count = 0 from hm0)]
      rw [hsim]
      refine ⟨_, g2, rfl, hm0, ?_⟩
      rw [Hybrid.content, if_pos (show m.count = 0 from hm0)]
      show h.raw = _
      rw [hrawe]
      have hmnil : m.content = [] := List.length_eq_zero.mp (by omega)
      rw [hmnil] at hmc
      exact hmc
    · rw [simplify_spec (show (Hybrid.mk h.highMark h.lowMark h.raw h.count m).node.wf from hmw)
        (show (Hybrid.mk h.highMark h.lowMark h.raw h.count m).node.count ≠ 0 from hm0)]
      refine ⟨_, g2, rfl, rfl, ?_⟩
      rw [Hybrid.content, if_pos (show (Node.mk 0 [] ([] : List α) 0).count = 0 from rfl)]
      show m.content = _
      exact hmc

/-- C4 witness: a raw-mode hybrid with marks `(2, 1)` spliced up to size 4
lands in tree mode with size 4. -/
theorem claim_C4_witness :
    ∃ h2 g2,
      (Hybrid.mk 2 1 ([5] : List Nat) 1 (New [] 0)).splice 0 0
          (Hybrid.mk 2 1 ([7, 8, 9] : List Nat) 3 (New [] 0)) 0 = some (h2, g2) ∧
      0 < h2.node.count ∧
      h2.size = (Hybrid.mk 2 1 ([5] : List Nat) 1 (New ([] : List Nat) 0)).count +
        ((Hybrid.mk 2 1 ([7, 8, 9] : List Nat) 3 (New ([] : List Nat) 0)).size - 0) :=
  (claim_C4_amended 0 (by decide) (by decide)
    ⟨fun _ => by decide, fun hn => absurd rfl hn⟩
    ⟨fun _ => by decide, fun hn => absurd rfl hn⟩
    (by decide) (by decide)).1 rfl (by decide) (by decide)

/-- C4 counterexample: with marks `H = -1 > L = -2` (so `L < H` as the
original claim requires), an empty raw-mode hybrid spliced with an empty
replacement has post-edit size `0 > H`, yet the result is still in raw
mode (`node.count = 0`), refuting the original raw-to-tree transition
claim. -/
theorem claim_C4_counterexample :
    (-2 : Int) < -1 ∧
    (Hybrid.mk (-1) (-2) ([] : List Nat) 0 (New [] 0)).highMark <
      (Hybrid.mk (-1) (-2) ([] : List Nat) 0 (New ([] : List Nat) 0)).count +
        ((Hybrid.mk (-1) (-2) ([] : List Nat) 0 (New ([] : List Nat) 0)).size - 0) ∧
    ((Hybrid.mk (-1) (-2) ([] : List Nat) 0 (New [] 0)).splice 0 0
        (Hybrid.mk (-1) (-2) ([] : List Nat) 0 (New [] 0)) 0).map
      (fun p => p.1.node.count) = some 0 := by
  refine ⟨by decide, by decide, ?_⟩
  decide

end Trope
